import Mathlib

/-!
# ProtoView sub-GHz radio controller and direct sampling worker

A shallow embedding of `app_subghz.c`: the radio state machine
(`radio_begin`, `radio_rx`, `radio_rx_end`, `radio_sleep`), the lifecycle of
the direct sampling worker (`raw_sampling_worker_start`,
`raw_sampling_worker_stop`) and the busy-polling loop
(`direct_sampling_thread`).

Calls into the radio driver, the thread library and the sample buffer are
recorded, in program order, in a trace carried by the state.  Machine
integers are naturals taken modulo `2 ^ 32` where the C code can wrap.
-/

namespace ProtoView

/-! ## Data model -/

/-- The `TxRxState` enumeration of `app.h`, as used by `app_subghz.c`. -/
inductive TxRxState
  | TxRxStateIDLE
  | TxRxStateRx
  | TxRxStateSleep
  deriving DecidableEq, Repr

/-- The hardware presets named by the modulation table.  `Zero` is the literal
`0` written in the rows that carry a custom register sequence and in the
sentinel row. -/
inductive FuriHalSubGhzPreset
  | Zero
  | FuriHalSubGhzPresetOok650Async
  | FuriHalSubGhzPresetOok270Async
  | FuriHalSubGhzPreset2FSKDev238Async
  | FuriHalSubGhzPreset2FSKDev476Async
  | FuriHalSubGhzPresetMSK99_97KbAsync
  | FuriHalSubGhzPresetGFSK9_99KbAsync
  deriving DecidableEq, Repr

/-- The custom register sequences of `custom_presets.h`, by name: the table
only passes the pointer on. -/
inductive CustomPreset
  | protoview_subghz_tpms1_async_regs
  | protoview_subghz_tpms2_async_regs
  deriving DecidableEq, Repr

/-- One row of the modulation table; `none` is the C `NULL`. -/
structure ProtoViewModulation where
  name : Option String
  preset : FuriHalSubGhzPreset
  custom : Option CustomPreset
  deriving DecidableEq, Repr

/-- The table `ProtoViewModulations[]`, sentinel row included. -/
def ProtoViewModulations : List ProtoViewModulation :=
  [ ⟨some "OOK 650Khz", .FuriHalSubGhzPresetOok650Async, none⟩,
    ⟨some "OOK 270Khz", .FuriHalSubGhzPresetOok270Async, none⟩,
    ⟨some "2FSK 2.38Khz", .FuriHalSubGhzPreset2FSKDev238Async, none⟩,
    ⟨some "2FSK 47.6Khz", .FuriHalSubGhzPreset2FSKDev476Async, none⟩,
    ⟨some "MSK", .FuriHalSubGhzPresetMSK99_97KbAsync, none⟩,
    ⟨some "GFSK", .FuriHalSubGhzPresetGFSK9_99KbAsync, none⟩,
    ⟨some "TPMS 1 (FSK)", .Zero, some .protoview_subghz_tpms1_async_regs⟩,
    ⟨some "TPMS 2 (FSK)", .Zero, some .protoview_subghz_tpms2_async_regs⟩,
    ⟨none, .Zero, none⟩ ]

/-- The calls the controller makes into the radio driver, the async worker
and the thread library, and its writes of the worker running flag.  Thread
handles are naturals. -/
inductive HwCmd
  | subghz_reset
  | subghz_idle
  | subghz_sleep
  | subghz_load_preset (p : FuriHalSubGhzPreset)
  | subghz_load_custom_preset (regs : CustomPreset)
  /-- The call `furi_hal_gpio_init(&gpio_cc1101_g0, GpioModeInput, GpioPullNo, GpioSpeedLow)`. -/
  | gpio_init_input_pullno_speedlow
  | subghz_set_frequency_and_path (frequency : Nat)
  | subghz_flush_rx
  | subghz_rx
  /-- The call `furi_hal_subghz_start_async_rx(subghz_worker_rx_callback, worker)`. -/
  | subghz_start_async_rx
  | subghz_worker_start
  | subghz_worker_stop
  | subghz_stop_async_rx
  /-- An assignment to `ds_thread_running`. -/
  | ds_thread_running_write (b : Bool)
  | thread_alloc_ex (h : Nat)
  | thread_start (h : Nat)
  | thread_join (h : Nat)
  | thread_free (h : Nat)
  deriving DecidableEq, Repr

/-- The messages the controller logs. -/
inductive LogMsg
  | switched_to_frequency (value : Nat)
  deriving DecidableEq, Repr

/-- The part of `ProtoViewApp` (with its `txrx` member flattened) that
`app_subghz.c` reads and writes, together with the record of issued
commands.  `ds_thread = none` is the `NULL` handle.  `worker_running` is the
running state of the async worker behind `txrx->worker`;
`threads_allocated` counts the calls of the thread allocator so far. -/
structure ProtoViewApp where
  frequency : Nat
  modulation : Nat
  txrx_state : TxRxState
  debug_direct_sampling : Bool
  worker_running : Bool
  ds_thread : Option Nat
  ds_thread_running : Bool
  threads_allocated : Nat
  trace : List HwCmd
  log : List LogMsg
  deriving DecidableEq, Repr

/-- The two driver queries whose answer the controller uses: the frequency
validity check and the value returned by the tuning call. -/
structure FuriHal where
  is_frequency_valid : Nat → Bool
  set_frequency_and_path : Nat → Nat

/-- Why `furi_crash` was called. -/
inductive CrashReason
  | incorrect_rx_frequency
  deriving DecidableEq, Repr

/-- How a call ends: it returns a value, or halts in `furi_crash`; either way
with the state reached at that point. -/
inductive Outcome (α : Type)
  | returned (value : α) (app : ProtoViewApp)
  | crashed (reason : CrashReason) (app : ProtoViewApp)
  deriving DecidableEq, Repr

/-! ## Radio controller -/

/-- Record one command. -/
def emit (app : ProtoViewApp) (c : HwCmd) : ProtoViewApp :=
  { app with trace := app.trace ++ [c] }

/-- Modelled from the spec: `furi_thread_alloc_ex` of the thread library,
which is not part of this file.  Allocation failure is fatal inside the
library, so a returning call yields a fresh non-null handle. -/
def furi_thread_alloc_ex (app : ProtoViewApp) : Nat × ProtoViewApp :=
  (app.threads_allocated,
   { app with threads_allocated := app.threads_allocated + 1,
              trace := app.trace ++ [HwCmd.thread_alloc_ex app.threads_allocated] })

/-- Modelled from the spec: `subghz_worker_start` of the async capture worker,
which is not part of this file: the worker is running afterwards. -/
def subghz_worker_start (app : ProtoViewApp) : ProtoViewApp :=
  { app with worker_running := true, trace := app.trace ++ [HwCmd.subghz_worker_start] }

/-- Modelled from the spec: `subghz_worker_stop` of the async capture worker,
which is not part of this file: the worker is not running afterwards. -/
def subghz_worker_stop (app : ProtoViewApp) : ProtoViewApp :=
  { app with worker_running := false, trace := app.trace ++ [HwCmd.subghz_worker_stop] }

/-- Modelled from the spec: `subghz_worker_is_running`, the running-state query
of the async capture worker. -/
def subghz_worker_is_running (app : ProtoViewApp) : Bool :=
  app.worker_running

/-- The function `raw_sampling_worker_start`. -/
def raw_sampling_worker_start (app : ProtoViewApp) : ProtoViewApp :=
  if app.ds_thread ≠ none then app
  else
    let app := emit { app with ds_thread_running := true } (HwCmd.ds_thread_running_write true)
    let (h, app) := furi_thread_alloc_ex app
    let app := { app with ds_thread := some h }
    emit app (HwCmd.thread_start h)

/-- The function `raw_sampling_worker_stop`. -/
def raw_sampling_worker_stop (app : ProtoViewApp) : ProtoViewApp :=
  match app.ds_thread with
  | none => app
  | some h =>
    let app := emit { app with ds_thread_running := false } (HwCmd.ds_thread_running_write false)
    let app := emit app (HwCmd.thread_join h)
    let app := emit app (HwCmd.thread_free h)
    { app with ds_thread := none }

/-- The function `radio_begin`.  `none` stands for an index beyond the table,
where the C code reads out of bounds. -/
def radio_begin (app : ProtoViewApp) : Option ProtoViewApp :=
  match ProtoViewModulations.get? app.modulation with
  | none => none
  | some m =>
    let app := emit app HwCmd.subghz_reset
    let app := emit app HwCmd.subghz_idle
    let app :=
      match m.custom with
      | none => emit app (HwCmd.subghz_load_preset m.preset)
      | some regs => emit app (HwCmd.subghz_load_custom_preset regs)
    let app := emit app HwCmd.gpio_init_input_pullno_speedlow
    some { app with txrx_state := TxRxState.TxRxStateIDLE }

/-- The function `radio_rx`. -/
def radio_rx (hal : FuriHal) (app : ProtoViewApp) : Outcome Nat :=
  if !hal.is_frequency_valid app.frequency then
    Outcome.crashed CrashReason.incorrect_rx_frequency app
  else if app.txrx_state = TxRxState.TxRxStateRx then
    Outcome.returned app.frequency app
  else
    let app := emit app HwCmd.subghz_idle
    let value := hal.set_frequency_and_path app.frequency
    let app := emit app (HwCmd.subghz_set_frequency_and_path app.frequency)
    let app := { app with log := app.log ++ [LogMsg.switched_to_frequency value] }
    let app := emit app HwCmd.gpio_init_input_pullno_speedlow
    let app := emit app HwCmd.subghz_flush_rx
    let app := emit app HwCmd.subghz_rx
    let app :=
      if !app.debug_direct_sampling then
        subghz_worker_start (emit app HwCmd.subghz_start_async_rx)
      else
        raw_sampling_worker_start app
    Outcome.returned value { app with txrx_state := TxRxState.TxRxStateRx }

/-- The function `radio_rx_end`. -/
def radio_rx_end (app : ProtoViewApp) : ProtoViewApp :=
  let app :=
    if app.txrx_state = TxRxState.TxRxStateRx then
      if !app.debug_direct_sampling then
        if subghz_worker_is_running app then
          emit (subghz_worker_stop app) HwCmd.subghz_stop_async_rx
        else app
      else
        raw_sampling_worker_stop app
    else app
  let app := emit app HwCmd.subghz_idle
  { app with txrx_state := TxRxState.TxRxStateIDLE }

/-- The function `radio_sleep`. -/
def radio_sleep (app : ProtoViewApp) : ProtoViewApp :=
  let app := if app.txrx_state = TxRxState.TxRxStateRx then radio_rx_end app else app
  let app := emit app HwCmd.subghz_sleep
  { app with txrx_state := TxRxState.TxRxStateSleep }

/-! ## Direct sampling worker -/

/-- What `raw_samples_add` receives: the level held and for how many
microseconds. -/
structure RawSample where
  level : Bool
  duration : Nat
  deriving DecidableEq, Repr

/-- What the sampling thread reads from its surroundings: the `k`-th read of
the pin, of the cycle counter `DWT->CYCCNT` and of the flag
`ds_thread_running`, each counted from 0 in program order. -/
structure DsInput where
  gpio : Nat → Bool
  cyccnt : Nat → Nat
  running : Nat → Bool

/-- The observable steps of the sampling thread, in program order. -/
inductive DsEvent
  | running_read (b : Bool)
  | gpio_read (l : Bool)
  | cyccnt_read (v : Nat)
  | raw_samples_add (level : Bool) (dur : Nat)
  /-- The log line "Max loops reached in DS". -/
  | log_max_loops
  | delay_tick (n : Nat)
  /-- The `printf` loop after a batch, with the entries of `l` and `d` the
  batch has written; the remaining entries of the two arrays are not
  initialised by the C code. -/
  | debug_print (l : List Nat) (d : List Nat)
  | delay_ms (n : Nat)
  /-- The log line "Exiting DS thread". -/
  | log_exiting
  deriving DecidableEq, Repr

/-- The locals `last_level` and `last_change_time` of the thread, how many
reads of each input it has made, and its steps so far. -/
structure DsState where
  last_level : Bool
  last_change_time : Nat
  gpio_reads : Nat
  cyccnt_reads : Nat
  running_reads : Nat
  events : List DsEvent
  deriving DecidableEq, Repr

/-- Record one step of the thread. -/
def DsState.emit (st : DsState) (e : DsEvent) : DsState :=
  { st with events := st.events ++ [e] }

/-- One read of `app->txrx->ds_thread_running`. -/
def read_running (inp : DsInput) (st : DsState) : Bool × DsState :=
  let b := inp.running st.running_reads
  (b, { st with running_reads := st.running_reads + 1,
                events := st.events ++ [DsEvent.running_read b] })

/-- One call of `furi_hal_gpio_read(&gpio_cc1101_g0)`. -/
def read_gpio (inp : DsInput) (st : DsState) : Bool × DsState :=
  let l := inp.gpio st.gpio_reads
  (l, { st with gpio_reads := st.gpio_reads + 1,
                events := st.events ++ [DsEvent.gpio_read l] })

/-- One read of the 32-bit register `DWT->CYCCNT`. -/
def read_cyccnt (inp : DsInput) (st : DsState) : Nat × DsState :=
  let v := inp.cyccnt st.cyccnt_reads % 2 ^ 32
  (v, { st with cyccnt_reads := st.cyccnt_reads + 1,
                events := st.events ++ [DsEvent.cyccnt_read v] })

/-- The loop `while(maxloops-- && app->txrx->ds_thread_running)` with its
body, entered with the given value of `maxloops`; returns the value of
`maxloops` on leaving the loop.  The post-decrement of 0 wraps a `uint32_t`
to `2 ^ 32 - 1`; the flag is read only when the old `maxloops` was not 0. -/
def spin (inp : DsInput) : Nat → DsState → Nat × DsState
  | 0, st => (2 ^ 32 - 1, st)
  | maxloops + 1, st =>
    let r := read_running inp st
    if !r.1 then (maxloops, r.2)
    else
      let l := read_gpio inp r.2
      if l.1 != l.2.last_level then (maxloops, l.2)
      else spin inp maxloops l.2

/-- The arrays `l` (of `uint8_t`) and `d` (of `uint16_t`) of one batch: the
entries written so far, the array size being 50. -/
structure DsArrays where
  l : List Nat
  d : List Nat
  deriving DecidableEq, Repr

/-- The part of the `for` body after the spin, entered with the value of
`maxloops` the spin left: the check of `maxloops`, the reading of the clock,
the appended sample and the update of `last_level` and `last_change_time`.
`ipm` is the value of `furi_hal_cortex_instructions_per_microsecond()`. -/
def record_sample (inp : DsInput) (ipm : Nat) (j : Nat) (arr : DsArrays) (maxloops : Nat)
    (st : DsState) : DsArrays × DsState :=
  let st :=
    if maxloops = 0 then (st.emit DsEvent.log_max_loops).emit (DsEvent.delay_tick 1)
    else st
  let now := read_cyccnt inp st
  let dur := (now.1 + 2 ^ 32 - st.last_change_time) % 2 ^ 32
  let dur := dur / ipm
  let added := now.2.emit (DsEvent.raw_samples_add st.last_level dur)
  let arr : DsArrays :=
    if j < 50 then { l := arr.l ++ [st.last_level.toNat], d := arr.d ++ [dur % 2 ^ 16] }
    else arr
  (arr, { added with last_level := !st.last_level, last_change_time := now.1 })

/-- The body of the `for` loop up to and including the update of
`last_change_time`: one spin with a budget of 50000 and one appended sample. -/
def sample_body (inp : DsInput) (ipm : Nat) (j : Nat) (arr : DsArrays) (st : DsState) :
    DsArrays × DsState :=
  let s := spin inp 50000 st
  record_sample inp ipm j arr s.1 s.2

/-- The loop `for (uint32_t j = 0; j < 500; j++)`, with `n` iterations left
and the loop variable at `j`. -/
def for_loop (inp : DsInput) (ipm : Nat) : Nat → Nat → DsArrays → DsState → DsArrays × DsState
  | 0, _, arr, st => (arr, st)
  | n + 1, j, arr, st =>
    let b := sample_body inp ipm j arr st
    let r := read_running inp b.2
    if !r.1 then (b.1, r.2)
    else for_loop inp ipm n (j + 1) b.1 r.2

/-- One batch after the flag was read as set: the `for` loop over 500 samples,
the `printf` loop and `furi_delay_ms(50)`. -/
def batch (inp : DsInput) (ipm : Nat) (st : DsState) : DsState :=
  let b := for_loop inp ipm 500 0 { l := [], d := [] } st
  (b.2.emit (DsEvent.debug_print b.1.l b.1.d)).emit (DsEvent.delay_ms 50)

/-- The loop `while(app->txrx->ds_thread_running)` and the end of the
function, run for at most `fuel` batches.  The first component is the return
value of the thread, `none` when it is still running after `fuel` batches. -/
def outer_loop (inp : DsInput) (ipm : Nat) : Nat → DsState → Option Int × DsState
  | 0, st => (none, st)
  | fuel + 1, st =>
    let r := read_running inp st
    if !r.1 then (some 0, r.2.emit DsEvent.log_exiting)
    else outer_loop inp ipm fuel (batch inp ipm r.2)

/-- The function `direct_sampling_thread`, run for at most `fuel` batches.
The statement guarded by `if (0)` is dead code and left out. -/
def direct_sampling_thread (inp : DsInput) (ipm : Nat) (fuel : Nat) : Option Int × DsState :=
  let st : DsState :=
    { last_level := false, last_change_time := 0, gpio_reads := 0, cyccnt_reads := 0,
      running_reads := 0, events := [] }
  let t := read_cyccnt inp st
  outer_loop inp ipm fuel { t.2 with last_change_time := t.1 }

/-- The sample an event hands to the sink, if it is a `raw_samples_add`. -/
def DsEvent.sample : DsEvent → Option RawSample
  | DsEvent.raw_samples_add level dur => some { level := level, duration := dur }
  | _ => none

/-- The samples appended to the sink, in order. -/
def sink (events : List DsEvent) : List RawSample :=
  events.filterMap DsEvent.sample

/-! ## Derived notions and concrete inputs -/

/-- The state a call ends in. -/
def Outcome.state {α : Type} : Outcome α → ProtoViewApp
  | Outcome.returned _ app => app
  | Outcome.crashed _ app => app

/-- The value a call returns, `none` when it halts. -/
def Outcome.value? {α : Type} : Outcome α → Option α
  | Outcome.returned v _ => some v
  | Outcome.crashed _ _ => none

/-- A concrete driver for the examples: the frequency bands of the CC1101 and the
rounding of a requested frequency to the chip's 16-bit fractional divider of a
26 MHz crystal. -/
def cc1101_hal : FuriHal :=
  { is_frequency_valid := fun v =>
      (decide (299999755 ≤ v) && decide (v ≤ 348000335)) ||
      (decide (386999938 ≤ v) && decide (v ≤ 464000000)) ||
      (decide (778999847 ≤ v) && decide (v ≤ 928000000)),
    set_frequency_and_path := fun v => v * 65536 / 26000000 * 26000000 / 65536 }

/-- A concrete application state for the examples: no backend active, nothing
issued yet, in the given controller state, with the given requested frequency
and debug flag. -/
def example_app (st : TxRxState) (frequency : Nat) (debug : Bool) : ProtoViewApp :=
  { frequency := frequency, modulation := 0, txrx_state := st,
    debug_direct_sampling := debug, worker_running := false, ds_thread := none,
    ds_thread_running := false, threads_allocated := 0, trace := [], log := [] }

/-- The property of the sink and the tracked level that every step of the
thread keeps: levels of neighbouring samples differ, the last sample carries
the negation of the tracked level, and every duration is below `2 ^ 32`. -/
def SinkInv (events : List DsEvent) (last_level : Bool) : Prop :=
  List.Chain' (fun a b : RawSample => a.level ≠ b.level) (sink events) ∧
  (∀ x ∈ (sink events).getLast?, x.level = !last_level) ∧
  ∀ x ∈ sink events, x.duration < 2 ^ 32

/-- Whether a command is a thread allocation. -/
def HwCmd.is_thread_alloc : HwCmd → Bool
  | HwCmd.thread_alloc_ex _ => true
  | _ => false

/-- The state `radio_begin` reaches, `c` being the load command it issued. -/
def radio_begin_state (app : ProtoViewApp) (c : HwCmd) : ProtoViewApp :=
  { app with
    trace := app.trace ++ [HwCmd.subghz_reset, HwCmd.subghz_idle, c,
      HwCmd.gpio_init_input_pullno_speedlow],
    txrx_state := TxRxState.TxRxStateIDLE }

/-- The state `radio_rx` reaches before it starts a backend: the five radio
commands issued and the tuned value logged. -/
def tuned (hal : FuriHal) (app : ProtoViewApp) : ProtoViewApp :=
  { app with
    trace := app.trace ++ [HwCmd.subghz_idle,
      HwCmd.subghz_set_frequency_and_path app.frequency,
      HwCmd.gpio_init_input_pullno_speedlow, HwCmd.subghz_flush_rx, HwCmd.subghz_rx],
    log := app.log ++ [LogMsg.switched_to_frequency (hal.set_frequency_and_path app.frequency)] }

/-- Whether a command frees a thread. -/
def HwCmd.is_thread_free : HwCmd → Bool
  | HwCmd.thread_free _ => true
  | _ => false

/-- The calls the application makes on the controller after `radio_begin`;
`rx frequency` stores the frequency in `app->frequency` and calls `radio_rx`. -/
inductive RadioCall
  | rx (frequency : Nat)
  | rx_end
  | sleep
  deriving DecidableEq, Repr

/-- A sequence of controller calls, one after the other; `none` when a call
halts in `furi_crash`. -/
def run_calls (hal : FuriHal) : List RadioCall → ProtoViewApp → Option ProtoViewApp
  | [], app => some app
  | RadioCall.rx f :: cs, app =>
    match radio_rx hal { app with frequency := f } with
    | Outcome.returned _ a => run_calls hal cs a
    | Outcome.crashed _ _ => none
  | RadioCall.rx_end :: cs, app => run_calls hal cs (radio_rx_end app)
  | RadioCall.sleep :: cs, app => run_calls hal cs (radio_sleep app)

/-- The frequency a call requests, if it is a `radio_rx`. -/
def RadioCall.frequency? : RadioCall → Option Nat
  | RadioCall.rx f => some f
  | _ => none

/-- What holds of the controller between calls when the debug flag stays at
direct sampling: the flag is on, the worker handle is non-null exactly in
Receiving, and the thread allocations issued exceed the thread frees issued
by one when the handle is non-null and by none when it is null. -/
def SingleWorker (s : ProtoViewApp) : Prop :=
  s.debug_direct_sampling = true ∧
  (s.ds_thread ≠ none ↔ s.txrx_state = TxRxState.TxRxStateRx) ∧
  s.trace.countP HwCmd.is_thread_alloc =
    s.trace.countP HwCmd.is_thread_free + (if s.ds_thread = none then 0 else 1)

/-- The value an event reads from the cycle counter, if it is such a read. -/
def DsEvent.cyc? : DsEvent → Option Nat
  | DsEvent.cyccnt_read v => some v
  | _ => none

/-- The values read from the cycle counter, in order. -/
def cyc_reads (events : List DsEvent) : List Nat :=
  events.filterMap DsEvent.cyc?

/-- The differences modulo `2 ^ 32` between each value of a list and the one
before it. -/
def deltas : List Nat → List Nat
  | a :: b :: rest => (b + 2 ^ 32 - a) % 2 ^ 32 :: deltas (b :: rest)
  | _ => []

/-- Whether an event is a read of the running flag or of the pin. -/
def DsEvent.is_poll : DsEvent → Bool
  | DsEvent.running_read _ => true
  | DsEvent.gpio_read _ => true
  | _ => false

/-- What every step of the thread keeps of the clock: the interval start is the
last value read from the cycle counter, every value read is below `2 ^ 32`,
and the durations in the sink are the differences of consecutive values read,
divided by the cycles per microsecond. -/
def ClockInv (ipm : Nat) (st : DsState) : Prop :=
  (cyc_reads st.events).getLast? = some st.last_change_time ∧
  (∀ v ∈ cyc_reads st.events, v < 2 ^ 32) ∧
  (sink st.events).map RawSample.duration = (deltas (cyc_reads st.events)).map (fun x => x / ipm)

/-- The state in which `direct_sampling_thread` enters its outer loop: the
tracked level low, the interval start read from the cycle counter. -/
def ds_entry (inp : DsInput) : DsState :=
  { last_level := false, last_change_time := inp.cyccnt 0 % 2 ^ 32, gpio_reads := 0,
    cyccnt_reads := 1, running_reads := 0,
    events := [DsEvent.cyccnt_read (inp.cyccnt 0 % 2 ^ 32)] }

/-- A concrete input for the examples: the pin and the cycle counter read the
values of the two lists in turn (low and 0 once a list is used up), the running
flag reads set `stop` times and cleared from then on. -/
def DsInput.of_lists (gpio : List Bool) (cyccnt : List Nat) (stop : Nat) : DsInput :=
  { gpio := fun k => gpio.getD k false,
    cyccnt := fun k => cyccnt.getD k 0,
    running := fun k => decide (k < stop) }

/-- The events of `p` passes through the busy poll in which the flag reads set
and the pin reads `lvl`. -/
def polls (lvl : Bool) : Nat → List DsEvent
  | 0 => []
  | p + 1 => DsEvent.running_read true :: DsEvent.gpio_read lvl :: polls lvl p

/-- The state after `p` passes through the busy poll in which the flag read set
and the pin read the tracked level. -/
def DsState.polled (st : DsState) (p : Nat) : DsState :=
  { st with
    gpio_reads := st.gpio_reads + p,
    running_reads := st.running_reads + p,
    events := st.events ++ polls st.last_level p }

/-- A concrete input for the examples: the pin reads low 49999 times and high
from then on, so that the first transition is seen on the 50000th pass of the
busy poll; the flag reads set 50001 times, up to that pass, and cleared from
then on. -/
def late_edge_input : DsInput :=
  { gpio := fun k => decide (49999 ≤ k),
    cyccnt := fun k => [0, 6400].getD k 0,
    running := fun k => decide (k < 50001) }

/-- What the thread may still do inside a batch after it has read the flag as
cleared: nothing, when the read was the check after a sample; or, when the
read was in the busy poll, the log line and tick if `maxloops` was left at 0,
the clock read, one sample, and the check after it. -/
def InBatchAfterClear (post : List DsEvent) : Prop :=
  post = [] ∨
  ∃ (logs : List DsEvent) (n : Nat) (lvl : Bool) (dur : Nat),
    (logs = [] ∨ logs = [DsEvent.log_max_loops, DsEvent.delay_tick 1]) ∧
    post = logs ++ [DsEvent.cyccnt_read n, DsEvent.raw_samples_add lvl dur,
      DsEvent.running_read false]

/-- What the thread may still do after it has read the flag as cleared: when the
read was the loop condition of the outer loop, the exit log line; otherwise
the rest of the batch as in `InBatchAfterClear`, the debug print, the delay,
the read of the outer loop condition, cleared, and the exit log line. -/
def AfterClear (post : List DsEvent) : Prop :=
  post = [DsEvent.log_exiting] ∨
  ∃ (inb : List DsEvent) (l d : List Nat),
    InBatchAfterClear inb ∧
    post = inb ++ [DsEvent.debug_print l d, DsEvent.delay_ms 50,
      DsEvent.running_read false, DsEvent.log_exiting]

/-- One interval of an input line as the thread meets it: for how many passes
of the busy poll the pin still reads the level of the interval before the
transition that ends it is seen, and how many cycles of the cycle counter the
interval lasts. -/
structure Interval where
  polls : Nat
  cycles : Nat
  deriving DecidableEq, Repr

/-- The input presents the given intervals, in order, to a thread whose next
pin read is read `g`, whose next clock read is read `c`, and whose current
interval has level `lvl` and started at counter value `t`: during each
interval the pin reads its level, the transition that ends it is seen within
the budget of 50000 passes, and the clock read at that moment is the start of
the interval plus its length, modulo `2 ^ 32`. -/
def LineFrom (inp : DsInput) : List Interval → Bool → Nat → Nat → Nat → Prop
  | [], _, _, _, _ => True
  | iv :: rest, lvl, g, c, t =>
    iv.polls < 50000 ∧
    (∀ i, i < iv.polls → inp.gpio (g + i) = lvl) ∧
    inp.gpio (g + iv.polls) = (!lvl) ∧
    iv.cycles < 2 ^ 32 ∧
    inp.cyccnt c % 2 ^ 32 = (t + iv.cycles) % 2 ^ 32 ∧
    LineFrom inp rest (!lvl) (g + iv.polls + 1) (c + 1) (inp.cyccnt c % 2 ^ 32)

/-- The samples a line calls for: for each interval its level, starting at
`lvl` and alternating, and its length in whole microseconds. -/
def line_samples (ipm : Nat) : List Interval → Bool → List RawSample
  | [], _ => []
  | iv :: rest, lvl => { level := lvl, duration := iv.cycles / ipm } :: line_samples ipm rest (!lvl)

/-- The reads of the running flag the samples of the given intervals take: in
the busy poll one for each pass, the pass that sees the transition included,
and one in the check after the sample. -/
def flag_reads (ivs : List Interval) : Nat :=
  (ivs.map (fun iv => iv.polls + 2)).sum

/-- The index of the read of the running flag that is the check after the last
sample of the given intervals: the reads of `flag_reads`, and one read of the
outer loop condition for each batch of 500 samples begun. -/
def stop_index (ivs : List Interval) : Nat :=
  flag_reads ivs + (ivs.length + 499) / 500 - 1

/-- The events `A` hand exactly the samples `S` to the sink, and for each of
them the pin read that sees the end of its interval, the read of the negation
of its level, comes when the sink holds exactly the samples before it. -/
def Observed (S : List RawSample) (A : List DsEvent) : Prop :=
  sink A = S ∧
  ∀ k s, S[k]? = some s →
    ∃ pre post, A = pre ++ DsEvent.gpio_read (!s.level) :: post ∧ sink pre = S.take k

/-! ## Radio controller: auxiliary facts -/

theorem raw_sampling_worker_start_null (app : ProtoViewApp) (h : app.ds_thread = none) :
    raw_sampling_worker_start app =
      { app with
        ds_thread_running := true,
        ds_thread := some app.threads_allocated,
        threads_allocated := app.threads_allocated + 1,
        trace := app.trace ++ [HwCmd.ds_thread_running_write true,
          HwCmd.thread_alloc_ex app.threads_allocated,
          HwCmd.thread_start app.threads_allocated] } := by
  simp [raw_sampling_worker_start, h, emit, furi_thread_alloc_ex]

theorem raw_sampling_worker_start_nonnull (app : ProtoViewApp) (h : app.ds_thread ≠ none) :
    raw_sampling_worker_start app = app := by
  simp [raw_sampling_worker_start, h]

theorem raw_sampling_worker_start_handle (app : ProtoViewApp) :
    (raw_sampling_worker_start app).ds_thread ≠ none := by
  by_cases h : app.ds_thread = none
  · rw [raw_sampling_worker_start_null app h]; simp
  · rw [raw_sampling_worker_start_nonnull app h]; exact h

theorem raw_sampling_worker_start_frame (app : ProtoViewApp) :
    (raw_sampling_worker_start app).frequency = app.frequency ∧
    (raw_sampling_worker_start app).txrx_state = app.txrx_state ∧
    (raw_sampling_worker_start app).debug_direct_sampling = app.debug_direct_sampling ∧
    (raw_sampling_worker_start app).worker_running = app.worker_running := by
  by_cases h : app.ds_thread = none
  · rw [raw_sampling_worker_start_null app h]; simp
  · rw [raw_sampling_worker_start_nonnull app h]; simp

theorem raw_sampling_worker_stop_some (app : ProtoViewApp) (h : Nat)
    (hh : app.ds_thread = some h) :
    raw_sampling_worker_stop app =
      { app with
        ds_thread_running := false,
        ds_thread := none,
        trace := app.trace ++ [HwCmd.ds_thread_running_write false, HwCmd.thread_join h,
          HwCmd.thread_free h] } := by
  simp [raw_sampling_worker_stop, hh, emit]

theorem raw_sampling_worker_stop_none (app : ProtoViewApp) (hh : app.ds_thread = none) :
    raw_sampling_worker_stop app = app := by
  simp [raw_sampling_worker_stop, hh]

theorem radio_rx_of_valid (hal : FuriHal) (app : ProtoViewApp)
    (hv : hal.is_frequency_valid app.frequency = true)
    (hs : app.txrx_state ≠ TxRxState.TxRxStateRx) :
    radio_rx hal app = Outcome.returned (hal.set_frequency_and_path app.frequency)
      { (if app.debug_direct_sampling then raw_sampling_worker_start (tuned hal app)
         else
          { tuned hal app with
              trace := (tuned hal app).trace ++
                [HwCmd.subghz_start_async_rx, HwCmd.subghz_worker_start],
              worker_running := true }) with
        txrx_state := TxRxState.TxRxStateRx } := by
  unfold radio_rx
  rw [hv]
  simp only [Bool.not_true, Bool.false_eq_true, if_false, if_neg hs]
  cases hd : app.debug_direct_sampling <;>
    simp [emit, subghz_worker_start, hd, tuned]

theorem radio_rx_of_receiving (hal : FuriHal) (app : ProtoViewApp)
    (hv : hal.is_frequency_valid app.frequency = true)
    (hs : app.txrx_state = TxRxState.TxRxStateRx) :
    radio_rx hal app = Outcome.returned app.frequency app := by
  simp [radio_rx, hv, hs]

theorem radio_rx_end_of_not_receiving (app : ProtoViewApp)
    (hs : app.txrx_state ≠ TxRxState.TxRxStateRx) :
    radio_rx_end app =
      { app with trace := app.trace ++ [HwCmd.subghz_idle],
                 txrx_state := TxRxState.TxRxStateIDLE } := by
  simp [radio_rx_end, hs, emit]

theorem radio_rx_end_txrx_state (app : ProtoViewApp) :
    (radio_rx_end app).txrx_state = TxRxState.TxRxStateIDLE := by
  simp [radio_rx_end]

theorem radio_begin_of_lt (app : ProtoViewApp) (hm : app.modulation < 9) :
    ∃ c : HwCmd, radio_begin app = some (radio_begin_state app c) := by
  have hlen : app.modulation < ProtoViewModulations.length := hm
  unfold radio_begin
  rw [List.get?_eq_get hlen]
  simp only
  split
  · exact ⟨HwCmd.subghz_load_preset (ProtoViewModulations.get ⟨app.modulation, hlen⟩).preset,
      by simp [radio_begin_state, emit]⟩
  · rename_i regs _
    exact ⟨HwCmd.subghz_load_custom_preset regs, by simp [radio_begin_state, emit]⟩

theorem radio_rx_trace_head (hal : FuriHal) (app : ProtoViewApp) :
    ∃ rest : List HwCmd,
      ({ (if app.debug_direct_sampling then raw_sampling_worker_start (tuned hal app)
         else
          { tuned hal app with
              trace := (tuned hal app).trace ++
                [HwCmd.subghz_start_async_rx, HwCmd.subghz_worker_start],
              worker_running := true }) with
        txrx_state := TxRxState.TxRxStateRx } : ProtoViewApp).trace
        = app.trace ++
          HwCmd.subghz_idle :: HwCmd.subghz_set_frequency_and_path app.frequency :: rest := by
  cases hd : app.debug_direct_sampling
  · exact ⟨[HwCmd.gpio_init_input_pullno_speedlow, HwCmd.subghz_flush_rx, HwCmd.subghz_rx,
      HwCmd.subghz_start_async_rx, HwCmd.subghz_worker_start], by simp [tuned]⟩
  · by_cases hn : (tuned hal app).ds_thread = none
    · simp only [if_true]
      rw [raw_sampling_worker_start_null _ hn]
      exact ⟨[HwCmd.gpio_init_input_pullno_speedlow, HwCmd.subghz_flush_rx, HwCmd.subghz_rx,
        HwCmd.ds_thread_running_write true, HwCmd.thread_alloc_ex app.threads_allocated,
        HwCmd.thread_start app.threads_allocated], by simp [tuned]⟩
    · simp only [if_true]
      rw [raw_sampling_worker_start_nonnull _ hn]
      exact ⟨[HwCmd.gpio_init_input_pullno_speedlow, HwCmd.subghz_flush_rx, HwCmd.subghz_rx],
        by simp [tuned]⟩

/-! ## Radio controller: theorems -/

/-- C1 (refuted as stated): on the CC1101 driver, from Idle, a request for
433920000 Hz is tuned to 433919830 Hz, which the first `radio_rx` returns; the
second `radio_rx` returns the requested 433920000, so the two calls do not
return the same value. -/
theorem radio_rx_second_call_differs :
    cc1101_hal.is_frequency_valid 433920000 = true ∧
    (example_app TxRxState.TxRxStateIDLE 433920000 false).txrx_state ≠ TxRxState.TxRxStateRx ∧
    (radio_rx cc1101_hal (example_app TxRxState.TxRxStateIDLE 433920000 false)).value?
      = some 433919830 ∧
    (radio_rx cc1101_hal
      (radio_rx cc1101_hal (example_app TxRxState.TxRxStateIDLE 433920000 false)).state).value?
      = some 433920000 := by
  decide

/-- C1 (amended): for a valid requested frequency and a state that is not
Receiving, the first `radio_rx` returns the value the tuning call returned and
leaves the state Receiving with the requested frequency untouched; the second
`radio_rx` changes nothing, leaves the state Receiving and returns the
requested frequency `app.frequency`. -/
theorem radio_rx_twice (hal : FuriHal) (app : ProtoViewApp)
    (hv : hal.is_frequency_valid app.frequency = true)
    (hs : app.txrx_state ≠ TxRxState.TxRxStateRx) :
    ∃ a1 : ProtoViewApp,
      radio_rx hal app = Outcome.returned (hal.set_frequency_and_path app.frequency) a1 ∧
      a1.txrx_state = TxRxState.TxRxStateRx ∧
      a1.frequency = app.frequency ∧
      radio_rx hal a1 = Outcome.returned app.frequency a1 := by
  have hfreq : ({ (if app.debug_direct_sampling then raw_sampling_worker_start (tuned hal app)
         else
          { tuned hal app with
              trace := (tuned hal app).trace ++
                [HwCmd.subghz_start_async_rx, HwCmd.subghz_worker_start],
              worker_running := true }) with
        txrx_state := TxRxState.TxRxStateRx } : ProtoViewApp).frequency = app.frequency := by
    cases hd : app.debug_direct_sampling
    · rfl
    · show (raw_sampling_worker_start (tuned hal app)).frequency = app.frequency
      rw [(raw_sampling_worker_start_frame (tuned hal app)).1]
      rfl
  refine ⟨_, radio_rx_of_valid hal app hv hs, rfl, hfreq, ?_⟩
  · have hf : ∀ a : ProtoViewApp, a.frequency = app.frequency →
        a.txrx_state = TxRxState.TxRxStateRx →
        radio_rx hal a = Outcome.returned app.frequency a := by
      intro a h1 h2
      rw [← h1]
      exact radio_rx_of_receiving hal a (by rw [h1]; exact hv) h2
    exact hf _ hfreq rfl

/-- C1 (amended), at a concrete input: the CC1101 driver, from Idle, asked for
433920000 Hz. -/
theorem radio_rx_twice_witness :
    ∃ a1 : ProtoViewApp,
      radio_rx cc1101_hal (example_app TxRxState.TxRxStateIDLE 433920000 false)
        = Outcome.returned 433919830 a1 ∧
      a1.txrx_state = TxRxState.TxRxStateRx ∧
      a1.frequency = 433920000 ∧
      radio_rx cc1101_hal a1 = Outcome.returned 433920000 a1 :=
  radio_rx_twice cc1101_hal (example_app TxRxState.TxRxStateIDLE 433920000 false)
    (by decide) (by decide)

/-- C2: when the driver rejects the requested frequency, `radio_rx` halts in
`furi_crash` from every state, and the state at the halt is the state at the
call: no command has been issued, and the controller state and the worker
handle and flag are unchanged. -/
theorem radio_rx_invalid_frequency (hal : FuriHal) (app : ProtoViewApp)
    (hv : hal.is_frequency_valid app.frequency = false) :
    radio_rx hal app = Outcome.crashed CrashReason.incorrect_rx_frequency app ∧
    (radio_rx hal app).value? = none ∧
    (radio_rx hal app).state.trace = app.trace ∧
    (radio_rx hal app).state.txrx_state = app.txrx_state ∧
    (radio_rx hal app).state.ds_thread = app.ds_thread ∧
    (radio_rx hal app).state.ds_thread_running = app.ds_thread_running := by
  have h : radio_rx hal app = Outcome.crashed CrashReason.incorrect_rx_frequency app := by
    simp [radio_rx, hv]
  rw [h]
  simp [Outcome.value?, Outcome.state]

/-- C2, at a concrete input: 100 Hz is outside the bands of the CC1101, and the
call from Sleeping halts with nothing issued. -/
theorem radio_rx_invalid_frequency_witness :
    cc1101_hal.is_frequency_valid 100 = false ∧
    radio_rx cc1101_hal (example_app TxRxState.TxRxStateSleep 100 true)
      = Outcome.crashed CrashReason.incorrect_rx_frequency
          (example_app TxRxState.TxRxStateSleep 100 true) ∧
    (radio_rx cc1101_hal (example_app TxRxState.TxRxStateSleep 100 true)).state.trace = [] :=
  ⟨by decide,
   (radio_rx_invalid_frequency cc1101_hal (example_app TxRxState.TxRxStateSleep 100 true)
      (by decide)).1,
   (radio_rx_invalid_frequency cc1101_hal (example_app TxRxState.TxRxStateSleep 100 true)
      (by decide)).2.2.1⟩

/-- C3 (refuted as stated): from Sleeping, `radio_rx_end` leaves the controller
state Idle, not Sleeping. -/
theorem radio_rx_end_from_sleep_changes_state :
    (example_app TxRxState.TxRxStateSleep 433920000 false).txrx_state
      = TxRxState.TxRxStateSleep ∧
    (radio_rx_end (example_app TxRxState.TxRxStateSleep 433920000 false)).txrx_state
      = TxRxState.TxRxStateIDLE ∧
    (radio_rx_end (example_app TxRxState.TxRxStateSleep 433920000 false)).txrx_state
      ≠ (example_app TxRxState.TxRxStateSleep 433920000 false).txrx_state := by
  decide

/-- C3 (amended): from a state that is not Receiving, `radio_rx_end` stops no
backend and touches no thread: it issues the radio idle command, nothing else,
and sets the controller state to Idle, so Idle stays Idle and Sleeping becomes
Idle; every other field is unchanged. -/
theorem radio_rx_end_not_receiving (app : ProtoViewApp)
    (hs : app.txrx_state ≠ TxRxState.TxRxStateRx) :
    radio_rx_end app =
      { app with trace := app.trace ++ [HwCmd.subghz_idle],
                 txrx_state := TxRxState.TxRxStateIDLE } ∧
    (radio_rx_end app).txrx_state = TxRxState.TxRxStateIDLE ∧
    (radio_rx_end app).trace = app.trace ++ [HwCmd.subghz_idle] ∧
    (radio_rx_end app).ds_thread = app.ds_thread ∧
    (radio_rx_end app).ds_thread_running = app.ds_thread_running ∧
    (radio_rx_end app).worker_running = app.worker_running := by
  rw [radio_rx_end_of_not_receiving app hs]
  simp

/-- C3 (amended), at a concrete input: from Sleeping. -/
theorem radio_rx_end_not_receiving_witness :
    (radio_rx_end (example_app TxRxState.TxRxStateSleep 433920000 true)).trace
      = [HwCmd.subghz_idle] ∧
    (radio_rx_end (example_app TxRxState.TxRxStateSleep 433920000 true)).ds_thread = none :=
  ⟨(radio_rx_end_not_receiving (example_app TxRxState.TxRxStateSleep 433920000 true)
      (by decide)).2.2.1,
   (radio_rx_end_not_receiving (example_app TxRxState.TxRxStateSleep 433920000 true)
      (by decide)).2.2.2.1⟩

/-- C4 (refuted as stated): started from Idle with the debug flag on, `radio_rx`
launches the direct sampling thread with handle 0; when the flag is off at the
time of `radio_rx_end`, the thread is neither joined nor freed: the handle is
still 0 and the running flag still set after the call, which has issued only
the radio idle command. -/
theorem radio_rx_end_flag_changed_leaves_worker :
    cc1101_hal.is_frequency_valid 433920000 = true ∧
    (radio_rx cc1101_hal (example_app TxRxState.TxRxStateIDLE 433920000 true)).state.ds_thread
      = some 0 ∧
    (radio_rx_end
      { (radio_rx cc1101_hal (example_app TxRxState.TxRxStateIDLE 433920000 true)).state with
        debug_direct_sampling := false }).ds_thread = some 0 ∧
    (radio_rx_end
      { (radio_rx cc1101_hal (example_app TxRxState.TxRxStateIDLE 433920000 true)).state with
        debug_direct_sampling := false }).ds_thread_running = true ∧
    (radio_rx_end
      { (radio_rx cc1101_hal (example_app TxRxState.TxRxStateIDLE 433920000 true)).state with
        debug_direct_sampling := false }).txrx_state = TxRxState.TxRxStateIDLE ∧
    (radio_rx_end
      { (radio_rx cc1101_hal (example_app TxRxState.TxRxStateIDLE 433920000 true)).state with
        debug_direct_sampling := false }).trace
      = (radio_rx cc1101_hal (example_app TxRxState.TxRxStateIDLE 433920000 true)).state.trace
          ++ [HwCmd.subghz_idle] := by
  decide

/-- C4 (amended): with the debug flag at `radio_rx_end` the same as at
`radio_rx`.  For a valid frequency, either value of the flag, and a starting
state that is not Receiving and has no backend active, `radio_rx` followed by
`radio_rx_end` stops the backend `radio_rx` started (flag off: the async
worker, then the async receive; flag on: running flag cleared, thread joined,
thread freed), then idles the radio and sets the state to Idle; afterwards the
worker handle is null and the async worker is not running. -/
theorem radio_rx_end_stops_started_backend (hal : FuriHal) (app : ProtoViewApp)
    (hv : hal.is_frequency_valid app.frequency = true)
    (hs : app.txrx_state ≠ TxRxState.TxRxStateRx)
    (hn : app.ds_thread = none) (hw : app.worker_running = false) :
    ∃ (v : Nat) (a1 : ProtoViewApp),
      radio_rx hal app = Outcome.returned v a1 ∧
      a1.debug_direct_sampling = app.debug_direct_sampling ∧
      (radio_rx_end a1).trace = a1.trace ++
        (if app.debug_direct_sampling then
          [HwCmd.ds_thread_running_write false, HwCmd.thread_join app.threads_allocated,
           HwCmd.thread_free app.threads_allocated]
         else [HwCmd.subghz_worker_stop, HwCmd.subghz_stop_async_rx]) ++ [HwCmd.subghz_idle] ∧
      (radio_rx_end a1).txrx_state = TxRxState.TxRxStateIDLE ∧
      (radio_rx_end a1).ds_thread = none ∧
      (radio_rx_end a1).worker_running = false := by
  refine ⟨_, _, radio_rx_of_valid hal app hv hs, ?_⟩
  cases hd : app.debug_direct_sampling
  · simp [radio_rx_end, tuned, emit, subghz_worker_is_running, subghz_worker_stop, hd, hn]
  · have ht : (tuned hal app).ds_thread = none := hn
    simp only [if_true]
    rw [raw_sampling_worker_start_null _ ht]
    simp [radio_rx_end, tuned, emit, raw_sampling_worker_stop, hd, hw]

/-- C4 (amended), at concrete inputs: from Idle with the flag on, and from
Sleeping with the flag off. -/
theorem radio_rx_end_stops_started_backend_witness :
    (∃ (v : Nat) (a1 : ProtoViewApp),
      radio_rx cc1101_hal (example_app TxRxState.TxRxStateIDLE 433920000 true)
        = Outcome.returned v a1 ∧
      a1.debug_direct_sampling = true ∧
      (radio_rx_end a1).trace = a1.trace ++
        (if true = true then
          [HwCmd.ds_thread_running_write false, HwCmd.thread_join 0, HwCmd.thread_free 0]
         else [HwCmd.subghz_worker_stop, HwCmd.subghz_stop_async_rx]) ++ [HwCmd.subghz_idle] ∧
      (radio_rx_end a1).txrx_state = TxRxState.TxRxStateIDLE ∧
      (radio_rx_end a1).ds_thread = none ∧
      (radio_rx_end a1).worker_running = false) ∧
    (∃ (v : Nat) (a1 : ProtoViewApp),
      radio_rx cc1101_hal (example_app TxRxState.TxRxStateSleep 433920000 false)
        = Outcome.returned v a1 ∧
      a1.debug_direct_sampling = false ∧
      (radio_rx_end a1).trace = a1.trace ++
        (if false = true then
          [HwCmd.ds_thread_running_write false, HwCmd.thread_join 0, HwCmd.thread_free 0]
         else [HwCmd.subghz_worker_stop, HwCmd.subghz_stop_async_rx]) ++ [HwCmd.subghz_idle] ∧
      (radio_rx_end a1).txrx_state = TxRxState.TxRxStateIDLE ∧
      (radio_rx_end a1).ds_thread = none ∧
      (radio_rx_end a1).worker_running = false) :=
  ⟨radio_rx_end_stops_started_backend cc1101_hal
      (example_app TxRxState.TxRxStateIDLE 433920000 true) (by decide) (by decide) rfl rfl,
   radio_rx_end_stops_started_backend cc1101_hal
      (example_app TxRxState.TxRxStateSleep 433920000 false) (by decide) (by decide) rfl rfl⟩

/-- C5: for a valid requested frequency and a state that is not Receiving,
`radio_rx` issues radio idle, tune to the requested frequency, capture pin as
input, flush, receive-arm, in this order, and then starts one backend: with
the debug flag off it registers the async callback and starts the async
worker; with the flag on it runs the direct sampling worker's start
(`raw_sampling_worker_start`), which with a null handle sets the running flag,
allocates one thread and launches it.  The state is then Receiving and the
value returned is the one the tuning call returned.  After `radio_begin` the
state is Idle, after `radio_sleep` Sleeping, and `radio_rx` then returns with
the state Receiving, its first two commands being radio idle and tune. -/
theorem radio_rx_command_sequence (hal : FuriHal) (app : ProtoViewApp)
    (hv : hal.is_frequency_valid app.frequency = true) :
    (app.txrx_state ≠ TxRxState.TxRxStateRx →
      ∃ a1 : ProtoViewApp,
        radio_rx hal app = Outcome.returned (hal.set_frequency_and_path app.frequency) a1 ∧
        a1.txrx_state = TxRxState.TxRxStateRx ∧
        (app.debug_direct_sampling = false →
          a1.trace = app.trace ++
            [HwCmd.subghz_idle, HwCmd.subghz_set_frequency_and_path app.frequency,
             HwCmd.gpio_init_input_pullno_speedlow, HwCmd.subghz_flush_rx, HwCmd.subghz_rx,
             HwCmd.subghz_start_async_rx, HwCmd.subghz_worker_start] ∧
          a1.worker_running = true ∧ a1.ds_thread = app.ds_thread ∧
          a1.ds_thread_running = app.ds_thread_running) ∧
        (app.debug_direct_sampling = true →
          a1 = { raw_sampling_worker_start
                  { app with
                    trace := app.trace ++
                      [HwCmd.subghz_idle, HwCmd.subghz_set_frequency_and_path app.frequency,
                       HwCmd.gpio_init_input_pullno_speedlow, HwCmd.subghz_flush_rx,
                       HwCmd.subghz_rx],
                    log := app.log ++ [LogMsg.switched_to_frequency
                      (hal.set_frequency_and_path app.frequency)] } with
                 txrx_state := TxRxState.TxRxStateRx } ∧
          a1.worker_running = app.worker_running ∧
          (app.ds_thread = none →
            a1.trace = app.trace ++
              [HwCmd.subghz_idle, HwCmd.subghz_set_frequency_and_path app.frequency,
               HwCmd.gpio_init_input_pullno_speedlow, HwCmd.subghz_flush_rx, HwCmd.subghz_rx,
               HwCmd.ds_thread_running_write true,
               HwCmd.thread_alloc_ex app.threads_allocated,
               HwCmd.thread_start app.threads_allocated] ∧
            a1.ds_thread = some app.threads_allocated ∧ a1.ds_thread_running = true))) ∧
    (app.modulation < 9 →
      ∃ (b a3 : ProtoViewApp) (rest : List HwCmd),
        radio_begin app = some b ∧
        b.txrx_state = TxRxState.TxRxStateIDLE ∧
        (radio_sleep b).txrx_state = TxRxState.TxRxStateSleep ∧
        radio_rx hal (radio_sleep b)
          = Outcome.returned (hal.set_frequency_and_path app.frequency) a3 ∧
        a3.txrx_state = TxRxState.TxRxStateRx ∧
        a3.trace = (radio_sleep b).trace ++
          HwCmd.subghz_idle :: HwCmd.subghz_set_frequency_and_path app.frequency :: rest) := by
  refine ⟨fun hs => ⟨_, radio_rx_of_valid hal app hv hs, rfl, ?_, ?_⟩, fun hm => ?_⟩
  · intro hd
    simp [hd, tuned]
  · intro hd
    refine ⟨by simp [hd, tuned], ?_, ?_⟩
    · simp only [hd, if_true]
      exact (raw_sampling_worker_start_frame (tuned hal app)).2.2.2
    · intro hn
      have ht : (tuned hal app).ds_thread = none := hn
      simp only [hd, if_true]
      rw [raw_sampling_worker_start_null _ ht]
      simp [tuned]
  · obtain ⟨c, hb⟩ := radio_begin_of_lt app hm
    obtain ⟨rest, hr⟩ := radio_rx_trace_head hal (radio_sleep (radio_begin_state app c))
    refine ⟨_, _, rest, hb, rfl, by simp [radio_sleep], ?_, ?_, hr⟩
    · exact radio_rx_of_valid hal (radio_sleep (radio_begin_state app c)) hv (by simp [radio_sleep])
    · rfl

/-- C5, at a concrete input: the CC1101 driver, modulation 0, debug flag on,
433920000 Hz requested from Idle. -/
theorem radio_rx_command_sequence_witness :
    cc1101_hal.is_frequency_valid 433920000 = true ∧
    (∃ a1 : ProtoViewApp,
      radio_rx cc1101_hal (example_app TxRxState.TxRxStateIDLE 433920000 true)
        = Outcome.returned 433919830 a1 ∧
      a1.txrx_state = TxRxState.TxRxStateRx ∧
      a1.trace =
        [HwCmd.subghz_idle, HwCmd.subghz_set_frequency_and_path 433920000,
         HwCmd.gpio_init_input_pullno_speedlow, HwCmd.subghz_flush_rx, HwCmd.subghz_rx,
         HwCmd.ds_thread_running_write true, HwCmd.thread_alloc_ex 0, HwCmd.thread_start 0]) ∧
    (∃ (b a3 : ProtoViewApp) (rest : List HwCmd),
      radio_begin (example_app TxRxState.TxRxStateIDLE 433920000 true) = some b ∧
      b.txrx_state = TxRxState.TxRxStateIDLE ∧
      (radio_sleep b).txrx_state = TxRxState.TxRxStateSleep ∧
      radio_rx cc1101_hal (radio_sleep b) = Outcome.returned 433919830 a3 ∧
      a3.txrx_state = TxRxState.TxRxStateRx ∧
      a3.trace = (radio_sleep b).trace ++
        HwCmd.subghz_idle :: HwCmd.subghz_set_frequency_and_path 433920000 :: rest) := by
  have h := radio_rx_command_sequence cc1101_hal
    (example_app TxRxState.TxRxStateIDLE 433920000 true) (by decide)
  refine ⟨by decide, ?_, h.2 (by decide)⟩
  obtain ⟨a1, h1, h2, _, h4⟩ := h.1 (by decide)
  exact ⟨a1, h1, h2, ((h4 rfl).2.2 rfl).1⟩

/-- C6: from every state `radio_sleep` ends in Sleeping with the radio sleep
command issued last.  From Receiving its commands are those of `radio_rx_end`
followed by the sleep command, and the worker handle, the worker flag and the
async worker's running state are those `radio_rx_end` leaves.  From any other
state it issues the sleep command only and leaves them as they were. -/
theorem radio_sleep_spec (app : ProtoViewApp) :
    (radio_sleep app).txrx_state = TxRxState.TxRxStateSleep ∧
    (radio_sleep app).trace.getLast? = some HwCmd.subghz_sleep ∧
    (app.txrx_state = TxRxState.TxRxStateRx →
      (radio_sleep app).trace = (radio_rx_end app).trace ++ [HwCmd.subghz_sleep] ∧
      (radio_sleep app).ds_thread = (radio_rx_end app).ds_thread ∧
      (radio_sleep app).ds_thread_running = (radio_rx_end app).ds_thread_running ∧
      (radio_sleep app).worker_running = (radio_rx_end app).worker_running) ∧
    (app.txrx_state ≠ TxRxState.TxRxStateRx →
      (radio_sleep app).trace = app.trace ++ [HwCmd.subghz_sleep] ∧
      (radio_sleep app).ds_thread = app.ds_thread ∧
      (radio_sleep app).ds_thread_running = app.ds_thread_running ∧
      (radio_sleep app).worker_running = app.worker_running) := by
  refine ⟨by simp [radio_sleep], by simp [radio_sleep, emit], ?_, ?_⟩
  · intro hs
    simp [radio_sleep, hs, emit]
  · intro hs
    simp [radio_sleep, hs, emit]

/-- C7: `radio_rx_end` twice leaves the controller state, the worker handle, the
worker flag and the async worker's running state as `radio_rx_end` once does,
whatever the debug flag is at the second call, and the second call issues the
radio idle command only: no backend stop, no join, no free.  From Idle the
first call already does the same: the state stays Idle, the radio idle command
is the only one issued, and handle and flags are unchanged. -/
theorem radio_rx_end_idempotent (app : ProtoViewApp) (debug : Bool) :
    (radio_rx_end { radio_rx_end app with debug_direct_sampling := debug }).txrx_state
      = (radio_rx_end app).txrx_state ∧
    (radio_rx_end { radio_rx_end app with debug_direct_sampling := debug }).ds_thread
      = (radio_rx_end app).ds_thread ∧
    (radio_rx_end { radio_rx_end app with debug_direct_sampling := debug }).ds_thread_running
      = (radio_rx_end app).ds_thread_running ∧
    (radio_rx_end { radio_rx_end app with debug_direct_sampling := debug }).worker_running
      = (radio_rx_end app).worker_running ∧
    (radio_rx_end { radio_rx_end app with debug_direct_sampling := debug }).trace
      = (radio_rx_end app).trace ++ [HwCmd.subghz_idle] ∧
    (app.txrx_state = TxRxState.TxRxStateIDLE →
      (radio_rx_end app).txrx_state = TxRxState.TxRxStateIDLE ∧
      (radio_rx_end app).trace = app.trace ++ [HwCmd.subghz_idle] ∧
      (radio_rx_end app).ds_thread = app.ds_thread ∧
      (radio_rx_end app).ds_thread_running = app.ds_thread_running ∧
      (radio_rx_end app).worker_running = app.worker_running) := by
  have h2 : radio_rx_end { radio_rx_end app with debug_direct_sampling := debug } =
      { ({ radio_rx_end app with debug_direct_sampling := debug } : ProtoViewApp) with
        trace := (radio_rx_end app).trace ++ [HwCmd.subghz_idle],
        txrx_state := TxRxState.TxRxStateIDLE } :=
    radio_rx_end_of_not_receiving _ (by simp [radio_rx_end_txrx_state])
  refine ⟨?_, ?_, ?_, ?_, ?_, ?_⟩
  · rw [h2, radio_rx_end_txrx_state]
  · rw [h2]
  · rw [h2]
  · rw [h2]
  · rw [h2]
  · intro hs
    rw [radio_rx_end_of_not_receiving app (by simp [hs])]
    simp

/-- C8: with a null handle `raw_sampling_worker_start` sets the running flag,
allocates one thread and launches it, in this order, and leaves a non-null
handle; with a non-null handle it changes nothing.  Hence any number of calls
in a row, from a null handle, has the effect of one: one thread allocated. -/
theorem raw_sampling_worker_start_spec (app : ProtoViewApp) :
    (app.ds_thread = none →
      raw_sampling_worker_start app =
        { app with
          ds_thread_running := true,
          ds_thread := some app.threads_allocated,
          threads_allocated := app.threads_allocated + 1,
          trace := app.trace ++ [HwCmd.ds_thread_running_write true,
            HwCmd.thread_alloc_ex app.threads_allocated,
            HwCmd.thread_start app.threads_allocated] }) ∧
    (app.ds_thread ≠ none → raw_sampling_worker_start app = app) ∧
    (∀ n : Nat, raw_sampling_worker_start^[n + 1] app = raw_sampling_worker_start app) ∧
    (app.ds_thread = none → ∀ n : Nat,
      (raw_sampling_worker_start^[n + 1] app).threads_allocated = app.threads_allocated + 1 ∧
      (raw_sampling_worker_start^[n + 1] app).trace.countP HwCmd.is_thread_alloc
        = app.trace.countP HwCmd.is_thread_alloc + 1) := by
  have hit : ∀ n : Nat,
      raw_sampling_worker_start^[n + 1] app = raw_sampling_worker_start app := by
    intro n
    rw [Function.iterate_succ_apply]
    exact Function.iterate_fixed
      (raw_sampling_worker_start_nonnull _ (raw_sampling_worker_start_handle app)) n
  refine ⟨raw_sampling_worker_start_null app, raw_sampling_worker_start_nonnull app, hit, ?_⟩
  intro hn n
  rw [hit n, raw_sampling_worker_start_null app hn]
  simp [List.countP_append, List.countP_cons, HwCmd.is_thread_alloc]

/-- C9: with a non-null handle `raw_sampling_worker_stop` clears the running
flag, joins the thread and frees it, in this order and nothing else, and
returns with the handle null and the flag false; with a null handle it does
nothing. -/
theorem raw_sampling_worker_stop_spec (app : ProtoViewApp) :
    (∀ h : Nat, app.ds_thread = some h →
      raw_sampling_worker_stop app =
        { app with
          ds_thread_running := false,
          ds_thread := none,
          trace := app.trace ++ [HwCmd.ds_thread_running_write false, HwCmd.thread_join h,
            HwCmd.thread_free h] }) ∧
    (app.ds_thread = none → raw_sampling_worker_stop app = app) :=
  ⟨fun h hh => raw_sampling_worker_stop_some app h hh,
   fun hh => raw_sampling_worker_stop_none app hh⟩

/-! ## Direct sampling worker: auxiliary facts -/

theorem sink_append (xs ys : List DsEvent) : sink (xs ++ ys) = sink xs ++ sink ys := by
  simp [sink, List.filterMap_append]

theorem read_running_frame (inp : DsInput) (st : DsState) :
    sink (read_running inp st).2.events = sink st.events ∧
    (read_running inp st).2.last_level = st.last_level ∧
    (read_running inp st).2.last_change_time = st.last_change_time := by
  simp [read_running, sink_append, sink, DsEvent.sample]

theorem read_gpio_frame (inp : DsInput) (st : DsState) :
    sink (read_gpio inp st).2.events = sink st.events ∧
    (read_gpio inp st).2.last_level = st.last_level ∧
    (read_gpio inp st).2.last_change_time = st.last_change_time := by
  simp [read_gpio, sink_append, sink, DsEvent.sample]

theorem read_cyccnt_frame (inp : DsInput) (st : DsState) :
    sink (read_cyccnt inp st).2.events = sink st.events ∧
    (read_cyccnt inp st).2.last_level = st.last_level ∧
    (read_cyccnt inp st).2.last_change_time = st.last_change_time ∧
    (read_cyccnt inp st).1 < 2 ^ 32 := by
  simp [read_cyccnt, sink_append, sink, DsEvent.sample]
  exact Nat.mod_lt _ (by norm_num)

theorem spin_frame (inp : DsInput) (maxloops : Nat) (st : DsState) :
    sink (spin inp maxloops st).2.events = sink st.events ∧
    (spin inp maxloops st).2.last_level = st.last_level ∧
    (spin inp maxloops st).2.last_change_time = st.last_change_time := by
  induction maxloops generalizing st with
  | zero => simp [spin]
  | succ n ih =>
    have hr := read_running_frame inp st
    have hg := read_gpio_frame inp (read_running inp st).2
    have hi := ih (read_gpio inp (read_running inp st).2).2
    rw [spin]
    simp only
    split
    · exact hr
    · split
      · exact ⟨hg.1.trans hr.1, hg.2.1.trans hr.2.1, hg.2.2.trans hr.2.2⟩
      · exact ⟨hi.1.trans (hg.1.trans hr.1), hi.2.1.trans (hg.2.1.trans hr.2.1),
          hi.2.2.trans (hg.2.2.trans hr.2.2)⟩

/-- What the part of the `for` body after the spin does to the sink and to the
tracked level: exactly one sample is appended, carrying the tracked level and
a duration below `2 ^ 32`, and the tracked level is negated. -/
theorem record_sample_sink (inp : DsInput) (ipm j : Nat) (arr : DsArrays) (m : Nat)
    (st : DsState) :
    ∃ dur : Nat, dur < 2 ^ 32 ∧
      sink (record_sample inp ipm j arr m st).2.events
        = sink st.events ++ [{ level := st.last_level, duration := dur }] ∧
      (record_sample inp ipm j arr m st).2.last_level = !st.last_level := by
  refine ⟨((read_cyccnt inp (if m = 0 then
      (st.emit DsEvent.log_max_loops).emit (DsEvent.delay_tick 1) else st)).1 + 2 ^ 32
      - st.last_change_time) % 2 ^ 32 / ipm, ?_, ?_, ?_⟩
  · exact lt_of_le_of_lt (Nat.div_le_self _ _) (Nat.mod_lt _ (by norm_num))
  · by_cases hm : m = 0
    · simp [record_sample, hm, DsState.emit, read_cyccnt, sink_append]
      simp [sink, DsEvent.sample]
    · simp [record_sample, hm, DsState.emit, read_cyccnt, sink_append]
      simp [sink, DsEvent.sample]
  · by_cases hm : m = 0
    · simp [record_sample, hm, DsState.emit, read_cyccnt]
    · simp [record_sample, hm, DsState.emit, read_cyccnt]

/-- What one pass through the body of the `for` loop does to the sink and to
the tracked level: exactly one sample is appended, carrying the tracked
level and a duration below `2 ^ 32`, and the tracked level is negated. -/
theorem sample_body_sink (inp : DsInput) (ipm j : Nat) (arr : DsArrays) (st : DsState) :
    ∃ dur : Nat, dur < 2 ^ 32 ∧
      sink (sample_body inp ipm j arr st).2.events
        = sink st.events ++ [{ level := st.last_level, duration := dur }] ∧
      (sample_body inp ipm j arr st).2.last_level = !st.last_level := by
  obtain ⟨h1, h2, _⟩ := spin_frame inp 50000 st
  obtain ⟨dur, hd, hs, hl⟩ := record_sample_sink inp ipm j arr (spin inp 50000 st).1
    (spin inp 50000 st).2
  rw [h1, h2] at hs
  rw [h2] at hl
  exact ⟨dur, hd, hs, hl⟩

/-- The property of the sink and the tracked level that every step of the
thread keeps: levels of neighbouring samples differ, the last sample carries
the negation of the tracked level, and every duration is below `2 ^ 32`. -/
theorem sink_inv_sample_body (inp : DsInput) (ipm j : Nat) (arr : DsArrays) (st : DsState)
    (h : SinkInv st.events st.last_level) :
    SinkInv (sample_body inp ipm j arr st).2.events (sample_body inp ipm j arr st).2.last_level := by
  obtain ⟨dur, hd, hsink, hl⟩ := sample_body_sink inp ipm j arr st
  obtain ⟨hc, hlast, hdur⟩ := h
  rw [SinkInv, hsink, hl]
  refine ⟨?_, ?_, ?_⟩
  · refine List.Chain'.append hc (List.chain'_singleton _) ?_
    intro x hx y hy
    simp only [List.head?_cons, Option.mem_def, Option.some.injEq] at hy
    subst hy
    rw [hlast x hx]
    simp
  · intro x hx
    simp only [List.getLast?_append, List.getLast?_singleton, Option.mem_def] at hx
    have hx2 : x = { level := st.last_level, duration := dur } := by
      simpa [Option.or] using hx.symm
    subst hx2
    simp
  · intro x hx
    rcases List.mem_append.1 hx with hx | hx
    · exact hdur x hx
    · simp only [List.mem_singleton] at hx
      subst hx
      exact hd

theorem sink_inv_read_running (inp : DsInput) (st : DsState)
    (h : SinkInv st.events st.last_level) :
    SinkInv (read_running inp st).2.events (read_running inp st).2.last_level := by
  obtain ⟨h1, h2, _⟩ := read_running_frame inp st
  rw [SinkInv, h1, h2]
  exact h

theorem sink_inv_emit (st : DsState) (e : DsEvent) (he : e.sample = none)
    (h : SinkInv st.events st.last_level) :
    SinkInv (st.emit e).events (st.emit e).last_level := by
  have : sink (st.emit e).events = sink st.events := by
    simp [DsState.emit, sink_append, sink, he]
  rw [SinkInv, this]
  exact h

theorem sink_inv_for_loop (inp : DsInput) (ipm n j : Nat) (arr : DsArrays) (st : DsState)
    (h : SinkInv st.events st.last_level) :
    SinkInv (for_loop inp ipm n j arr st).2.events (for_loop inp ipm n j arr st).2.last_level := by
  induction n generalizing j arr st with
  | zero => simpa [for_loop] using h
  | succ n ih =>
    have hb := sink_inv_sample_body inp ipm j arr st h
    have hr := sink_inv_read_running inp _ hb
    rw [for_loop]
    split
    · exact hr
    · exact ih _ _ _ hr

theorem sink_inv_batch (inp : DsInput) (ipm : Nat) (st : DsState)
    (h : SinkInv st.events st.last_level) :
    SinkInv (batch inp ipm st).events (batch inp ipm st).last_level :=
  sink_inv_emit _ _ rfl (sink_inv_emit _ _ rfl
    (sink_inv_for_loop inp ipm 500 0 { l := [], d := [] } st h))

theorem sink_inv_outer_loop (inp : DsInput) (ipm fuel : Nat) (st : DsState)
    (h : SinkInv st.events st.last_level) :
    SinkInv (outer_loop inp ipm fuel st).2.events (outer_loop inp ipm fuel st).2.last_level := by
  induction fuel generalizing st with
  | zero => simpa [outer_loop] using h
  | succ n ih =>
    have hr := sink_inv_read_running inp st h
    rw [outer_loop]
    split
    · exact sink_inv_emit _ _ rfl hr
    · exact ih _ (sink_inv_batch inp ipm _ hr)

/-! ## Direct sampling worker: theorems -/

/-- C10: whatever the pin, the cycle counter and the running flag read, and
however long the thread has run (also when it has returned), in the samples it
has appended to the sink every duration is a natural number below `2 ^ 32`
and any two consecutive samples have different levels. -/
theorem direct_sampling_thread_alternates (inp : DsInput) (ipm fuel : Nat) :
    List.Chain' (fun a b : RawSample => a.level ≠ b.level)
      (sink (direct_sampling_thread inp ipm fuel).2.events) ∧
    ∀ s ∈ sink (direct_sampling_thread inp ipm fuel).2.events,
      (0 : Int) ≤ (s.duration : Int) ∧ s.duration < 2 ^ 32 := by
  have h0 : SinkInv (direct_sampling_thread inp ipm fuel).2.events
      (direct_sampling_thread inp ipm fuel).2.last_level := by
    unfold direct_sampling_thread
    apply sink_inv_outer_loop
    simp [SinkInv, read_cyccnt, sink, DsEvent.sample]
  exact ⟨h0.1, fun s hs => ⟨Int.natCast_nonneg _, h0.2.2 s hs⟩⟩

/-! ## Radio controller: modulation table and call sequences -/

/-- C15: for every modulation index 0..7, `radio_begin` issues radio reset, radio
idle, one load command and the capture pin configuration (input, no pull, low
speed), in this order and nothing else, and sets the state to Idle.  The load
command is the hardware preset of the table row when the row has no custom
sequence, which is the case exactly for the indices 0..5, and the custom
register sequence of the row otherwise (indices 6 and 7). -/
theorem radio_begin_spec (app : ProtoViewApp) (hm : app.modulation < 8) :
    ∃ m : ProtoViewModulation,
      ProtoViewModulations.get? app.modulation = some m ∧
      (m.custom = none ↔ app.modulation < 6) ∧
      radio_begin app = some
        { app with
          trace := app.trace ++
            [HwCmd.subghz_reset, HwCmd.subghz_idle,
             (match m.custom with
              | none => HwCmd.subghz_load_preset m.preset
              | some regs => HwCmd.subghz_load_custom_preset regs),
             HwCmd.gpio_init_input_pullno_speedlow],
          txrx_state := TxRxState.TxRxStateIDLE } := by
  obtain ⟨frequency, modulation, txrx_state, debug, wr, dt, dtr, ta, trace, log⟩ := app
  simp only at hm
  interval_cases modulation <;>
    exact ⟨_, rfl, by simp, by simp [radio_begin, ProtoViewModulations, emit]⟩

/-- C15, at concrete inputs: index 1 loads the OOK 270 kHz preset, index 6 the
first TPMS register sequence. -/
theorem radio_begin_spec_witness :
    (radio_begin { example_app TxRxState.TxRxStateSleep 433920000 false with modulation := 1 }
      = some { example_app TxRxState.TxRxStateIDLE 433920000 false with
          modulation := 1,
          trace := [HwCmd.subghz_reset, HwCmd.subghz_idle,
            HwCmd.subghz_load_preset FuriHalSubGhzPreset.FuriHalSubGhzPresetOok270Async,
            HwCmd.gpio_init_input_pullno_speedlow] }) ∧
    (radio_begin { example_app TxRxState.TxRxStateSleep 433920000 false with modulation := 6 }
      = some { example_app TxRxState.TxRxStateIDLE 433920000 false with
          modulation := 6,
          trace := [HwCmd.subghz_reset, HwCmd.subghz_idle,
            HwCmd.subghz_load_custom_preset CustomPreset.protoview_subghz_tpms1_async_regs,
            HwCmd.gpio_init_input_pullno_speedlow] }) := by
  obtain ⟨m1, h1, _, e1⟩ := radio_begin_spec
    { example_app TxRxState.TxRxStateSleep 433920000 false with modulation := 1 } (by decide)
  obtain ⟨m6, h6, _, e6⟩ := radio_begin_spec
    { example_app TxRxState.TxRxStateSleep 433920000 false with modulation := 6 } (by decide)
  have k1 : m1 = ⟨some "OOK 270Khz", FuriHalSubGhzPreset.FuriHalSubGhzPresetOok270Async, none⟩ :=
    (Option.some.inj h1).symm
  have k6 : m6 = ⟨some "TPMS 1 (FSK)", FuriHalSubGhzPreset.Zero,
      some CustomPreset.protoview_subghz_tpms1_async_regs⟩ := (Option.some.inj h6).symm
  subst k1 k6
  exact ⟨e1, e6⟩

theorem single_worker_radio_rx_end (s : ProtoViewApp) (h : SingleWorker s) :
    SingleWorker (radio_rx_end s) := by
  obtain ⟨hd, hiff, hcount⟩ := h
  by_cases hs : s.txrx_state = TxRxState.TxRxStateRx
  · have hne : s.ds_thread ≠ none := hiff.2 hs
    obtain ⟨t, ht⟩ := Option.ne_none_iff_exists'.1 hne
    have hstop := raw_sampling_worker_stop_some s t ht
    have hend : radio_rx_end s =
        { s with ds_thread_running := false, ds_thread := none,
                 trace := s.trace ++ [HwCmd.ds_thread_running_write false, HwCmd.thread_join t,
                   HwCmd.thread_free t, HwCmd.subghz_idle],
                 txrx_state := TxRxState.TxRxStateIDLE } := by
      simp [radio_rx_end, hs, hd, hstop, emit]
    rw [hend]
    refine ⟨hd, by simp, ?_⟩
    simp [hne] at hcount
    simp [List.countP_append, List.countP_cons, HwCmd.is_thread_alloc, HwCmd.is_thread_free,
      hcount]
  · rw [radio_rx_end_of_not_receiving s hs]
    have hn : s.ds_thread = none := by
      by_contra hne
      exact hs (hiff.1 hne)
    refine ⟨hd, by simp [hn], ?_⟩
    simp [hn] at hcount
    simp [List.countP_append, List.countP_cons, HwCmd.is_thread_alloc, HwCmd.is_thread_free,
      hcount, hn]

theorem single_worker_radio_sleep (s : ProtoViewApp) (h : SingleWorker s) :
    SingleWorker (radio_sleep s) := by
  have he := single_worker_radio_rx_end s h
  have hidle := radio_rx_end_txrx_state s
  by_cases hs : s.txrx_state = TxRxState.TxRxStateRx
  · obtain ⟨hd, hiff, hcount⟩ := he
    have hn : (radio_rx_end s).ds_thread = none := by
      by_contra hne
      have := hiff.1 hne
      rw [hidle] at this
      exact absurd this (by decide)
    have hsl : radio_sleep s =
        { radio_rx_end s with trace := (radio_rx_end s).trace ++ [HwCmd.subghz_sleep],
                              txrx_state := TxRxState.TxRxStateSleep } := by
      simp [radio_sleep, hs, emit]
    rw [hsl]
    refine ⟨hd, by simp [hn], ?_⟩
    simp [hn] at hcount
    simp [List.countP_append, List.countP_cons, HwCmd.is_thread_alloc, HwCmd.is_thread_free,
      hcount, hn]
  · obtain ⟨hd, hiff, hcount⟩ := h
    have hn : s.ds_thread = none := by
      by_contra hne
      exact hs (hiff.1 hne)
    have hsl : radio_sleep s =
        { s with trace := s.trace ++ [HwCmd.subghz_sleep],
                 txrx_state := TxRxState.TxRxStateSleep } := by
      simp [radio_sleep, hs, emit]
    rw [hsl]
    refine ⟨hd, by simp [hn], ?_⟩
    simp [hn] at hcount
    simp [List.countP_append, List.countP_cons, HwCmd.is_thread_alloc, HwCmd.is_thread_free,
      hcount, hn]

theorem single_worker_radio_rx (hal : FuriHal) (s : ProtoViewApp) (h : SingleWorker s)
    (hv : hal.is_frequency_valid s.frequency = true) :
    ∃ (v : Nat) (a : ProtoViewApp), radio_rx hal s = Outcome.returned v a ∧ SingleWorker a := by
  obtain ⟨hd, hiff, hcount⟩ := h
  by_cases hs : s.txrx_state = TxRxState.TxRxStateRx
  · exact ⟨_, _, radio_rx_of_receiving hal s hv hs, hd, hiff, hcount⟩
  · have hn : s.ds_thread = none := by
      by_contra hne
      exact hs (hiff.1 hne)
    have ht : (tuned hal s).ds_thread = none := hn
    refine ⟨_, _, radio_rx_of_valid hal s hv hs, ?_⟩
    simp only [hd, if_true]
    rw [raw_sampling_worker_start_null _ ht]
    refine ⟨hd, by simp, ?_⟩
    simp [hn] at hcount
    simp [tuned, List.countP_append, List.countP_cons, HwCmd.is_thread_alloc,
      HwCmd.is_thread_free, hcount]

theorem single_worker_run_calls (hal : FuriHal) (calls : List RadioCall) (s : ProtoViewApp)
    (h : SingleWorker s)
    (hvalid : ∀ c ∈ calls, ∀ f, c.frequency? = some f → hal.is_frequency_valid f = true) :
    ∃ a : ProtoViewApp, run_calls hal calls s = some a ∧ SingleWorker a := by
  induction calls generalizing s with
  | nil => exact ⟨s, rfl, h⟩
  | cons c cs ih =>
    have hcs : ∀ c ∈ cs, ∀ f, c.frequency? = some f → hal.is_frequency_valid f = true :=
      fun c hc => hvalid c (List.mem_cons_of_mem _ hc)
    cases c with
    | rx f =>
      have hf : hal.is_frequency_valid f = true := hvalid _ (List.mem_cons_self _ _) f rfl
      have hw : SingleWorker { s with frequency := f } := h
      obtain ⟨v, a, ha, hwa⟩ := single_worker_radio_rx hal { s with frequency := f } hw hf
      obtain ⟨a2, h2, hw2⟩ := ih a hwa hcs
      exact ⟨a2, by simp [run_calls, ha, h2], hw2⟩
    | rx_end =>
      obtain ⟨a2, h2, hw2⟩ := ih _ (single_worker_radio_rx_end s h) hcs
      exact ⟨a2, by simp [run_calls, h2], hw2⟩
    | sleep =>
      obtain ⟨a2, h2, hw2⟩ := ih _ (single_worker_radio_sleep s h) hcs
      exact ⟨a2, by simp [run_calls, h2], hw2⟩

theorem radio_begin_some (app b : ProtoViewApp) (h : radio_begin app = some b) :
    ∃ c : HwCmd, b = radio_begin_state app c ∧
      c.is_thread_alloc = false ∧ c.is_thread_free = false := by
  unfold radio_begin at h
  split at h
  · exact absurd h (by simp)
  · rename_i m _
    cases hc : m.custom with
    | none =>
      refine ⟨HwCmd.subghz_load_preset m.preset, ?_, rfl, rfl⟩
      simp only [hc] at h
      rw [← Option.some.inj h]
      simp [radio_begin_state, emit]
    | some regs =>
      refine ⟨HwCmd.subghz_load_custom_preset regs, ?_, rfl, rfl⟩
      simp only [hc] at h
      rw [← Option.some.inj h]
      simp [radio_begin_state, emit]

/-- C16: with the debug flag on, start from a state with a null worker handle
in which every thread allocated so far has been freed, call `radio_begin`,
and then any finite sequence of `radio_rx` (each with a valid frequency),
`radio_rx_end` and `radio_sleep`.  Every call returns, and in the state
reached the worker handle is non-null exactly when the state is Receiving,
and the thread allocations issued exceed the thread frees issued by at most
one: by one when the handle is non-null, by none when it is null. -/
theorem run_calls_single_worker (hal : FuriHal) (app b : ProtoViewApp) (calls : List RadioCall)
    (hnull : app.ds_thread = none)
    (hdebug : app.debug_direct_sampling = true)
    (hlive : app.trace.countP HwCmd.is_thread_alloc = app.trace.countP HwCmd.is_thread_free)
    (hbegin : radio_begin app = some b)
    (hvalid : ∀ c ∈ calls, ∀ f, c.frequency? = some f → hal.is_frequency_valid f = true) :
    ∃ s : ProtoViewApp,
      run_calls hal calls b = some s ∧
      (s.ds_thread ≠ none ↔ s.txrx_state = TxRxState.TxRxStateRx) ∧
      s.trace.countP HwCmd.is_thread_free ≤ s.trace.countP HwCmd.is_thread_alloc ∧
      s.trace.countP HwCmd.is_thread_alloc ≤ s.trace.countP HwCmd.is_thread_free + 1 ∧
      (s.trace.countP HwCmd.is_thread_alloc = s.trace.countP HwCmd.is_thread_free + 1
        ↔ s.ds_thread ≠ none) := by
  obtain ⟨c, hbc, hca, hcf⟩ := radio_begin_some app b hbegin
  have hw : SingleWorker b := by
    rw [hbc]
    refine ⟨hdebug, by simp [radio_begin_state, hnull], ?_⟩
    have r1 : HwCmd.is_thread_alloc HwCmd.subghz_reset = false := rfl
    have r2 : HwCmd.is_thread_free HwCmd.subghz_reset = false := rfl
    have i1 : HwCmd.is_thread_alloc HwCmd.subghz_idle = false := rfl
    have i2 : HwCmd.is_thread_free HwCmd.subghz_idle = false := rfl
    have g1 : HwCmd.is_thread_alloc HwCmd.gpio_init_input_pullno_speedlow = false := rfl
    have g2 : HwCmd.is_thread_free HwCmd.gpio_init_input_pullno_speedlow = false := rfl
    simp [radio_begin_state, List.countP_append, List.countP_cons, r1, r2, i1, i2, g1, g2,
      hca, hcf, hlive, hnull]
  obtain ⟨s, hs, _, hiff, hcount⟩ := single_worker_run_calls hal calls b hw hvalid
  refine ⟨s, hs, hiff, ?_, ?_, ?_⟩
  · rw [hcount]; exact Nat.le_add_right _ _
  · rw [hcount]; split <;> simp
  · rw [hcount]
    by_cases hn : s.ds_thread = none <;> simp [hn]

/-- C16, at a concrete input: after `radio_begin` with the debug flag on, the
calls rx, rx, sleep, rx, rx_end, rx_end on the CC1101 driver. -/
theorem run_calls_single_worker_witness :
    ∃ s : ProtoViewApp,
      run_calls cc1101_hal
        [RadioCall.rx 433920000, RadioCall.rx 433920000, RadioCall.sleep,
         RadioCall.rx 868350000, RadioCall.rx_end, RadioCall.rx_end]
        (radio_begin_state (example_app TxRxState.TxRxStateSleep 0 true)
          (HwCmd.subghz_load_preset FuriHalSubGhzPreset.FuriHalSubGhzPresetOok650Async))
        = some s ∧
      (s.ds_thread ≠ none ↔ s.txrx_state = TxRxState.TxRxStateRx) ∧
      s.trace.countP HwCmd.is_thread_free ≤ s.trace.countP HwCmd.is_thread_alloc ∧
      s.trace.countP HwCmd.is_thread_alloc ≤ s.trace.countP HwCmd.is_thread_free + 1 ∧
      (s.trace.countP HwCmd.is_thread_alloc = s.trace.countP HwCmd.is_thread_free + 1
        ↔ s.ds_thread ≠ none) :=
  run_calls_single_worker cc1101_hal (example_app TxRxState.TxRxStateSleep 0 true) _ _
    rfl rfl rfl (by decide)
    (by
      intro c hc f hf
      simp only [List.mem_cons, List.mem_singleton, List.not_mem_nil, or_false] at hc
      rcases hc with rfl | rfl | rfl | rfl | rfl | rfl <;>
        simp only [RadioCall.frequency?, Option.some.injEq] at hf <;>
        first
        | (subst hf; decide)
        | exact absurd hf (by simp))

/-! ## Direct sampling worker: bounds on the busy poll -/

theorem spin_zero (inp : DsInput) (st : DsState) : spin inp 0 st = (2 ^ 32 - 1, st) := by
  rw [spin]

theorem spin_succ (inp : DsInput) (m : Nat) (st : DsState) :
    spin inp (m + 1) st =
      if !(read_running inp st).1 then (m, (read_running inp st).2)
      else if (read_gpio inp (read_running inp st).2).1
          != (read_gpio inp (read_running inp st).2).2.last_level then
        (m, (read_gpio inp (read_running inp st).2).2)
      else spin inp m (read_gpio inp (read_running inp st).2).2 := by
  rw [spin]

theorem for_loop_zero (inp : DsInput) (ipm j : Nat) (arr : DsArrays) (st : DsState) :
    for_loop inp ipm 0 j arr st = (arr, st) := by
  rw [for_loop]

theorem for_loop_succ (inp : DsInput) (ipm n j : Nat) (arr : DsArrays) (st : DsState) :
    for_loop inp ipm (n + 1) j arr st =
      if !(read_running inp (sample_body inp ipm j arr st).2).1 then
        ((sample_body inp ipm j arr st).1, (read_running inp (sample_body inp ipm j arr st).2).2)
      else for_loop inp ipm n (j + 1) (sample_body inp ipm j arr st).1
        (read_running inp (sample_body inp ipm j arr st).2).2 := by
  rw [for_loop]

theorem outer_loop_zero (inp : DsInput) (ipm : Nat) (st : DsState) :
    outer_loop inp ipm 0 st = (none, st) := by
  rw [outer_loop]

theorem outer_loop_succ (inp : DsInput) (ipm fuel : Nat) (st : DsState) :
    outer_loop inp ipm (fuel + 1) st =
      if !(read_running inp st).1 then
        (some 0, (read_running inp st).2.emit DsEvent.log_exiting)
      else outer_loop inp ipm fuel (batch inp ipm (read_running inp st).2) := by
  rw [outer_loop]

theorem spin_gpio_reads (inp : DsInput) (m : Nat) (st : DsState) :
    st.gpio_reads ≤ (spin inp m st).2.gpio_reads ∧
    (spin inp m st).2.gpio_reads ≤ st.gpio_reads + m ∧
    ∀ i, st.gpio_reads ≤ i → inp.gpio i ≠ st.last_level →
      (spin inp m st).2.gpio_reads ≤ i + 1 := by
  induction m generalizing st with
  | zero =>
    rw [spin_zero]
    exact ⟨Nat.le_refl _, Nat.le_refl _, fun i h _ => Nat.le_succ_of_le h⟩
  | succ n ih =>
    have hi := ih (read_gpio inp (read_running inp st).2).2
    have hg : (read_gpio inp (read_running inp st).2).2.gpio_reads = st.gpio_reads + 1 := rfl
    have hl : (read_gpio inp (read_running inp st).2).2.last_level = st.last_level := rfl
    have hv : (read_gpio inp (read_running inp st).2).1 = inp.gpio st.gpio_reads := rfl
    rw [spin_succ]
    split
    · refine ⟨Nat.le_refl _, Nat.le_add_right _ _, fun i h _ => ?_⟩
      exact Nat.le_succ_of_le h
    · split
      · rw [hg]
        refine ⟨Nat.le_succ _, by omega, fun i h _ => by omega⟩
      · rename_i hsame
        rw [hg, hl] at hi
        rw [hv, hl] at hsame
        refine ⟨by omega, by omega, fun i h hne => ?_⟩
        rcases Nat.eq_or_lt_of_le h with heq | hlt
        · subst heq
          exact absurd (by simpa using hsame) hne
        · exact hi.2.2 i hlt hne

theorem record_sample_gpio_reads (inp : DsInput) (ipm j : Nat) (arr : DsArrays) (m : Nat)
    (st : DsState) :
    (record_sample inp ipm j arr m st).2.gpio_reads = st.gpio_reads := by
  by_cases hm : m = 0 <;> simp [record_sample, hm, DsState.emit, read_cyccnt]

theorem for_loop_gpio_reads (inp : DsInput) (ipm n j : Nat) (arr : DsArrays) (st : DsState) :
    (for_loop inp ipm n j arr st).2.gpio_reads ≤ st.gpio_reads + n * 50000 := by
  induction n generalizing j arr st with
  | zero => simp [for_loop_zero]
  | succ n ih =>
    have hb : (sample_body inp ipm j arr st).2.gpio_reads ≤ st.gpio_reads + 50000 := by
      unfold sample_body
      rw [record_sample_gpio_reads]
      exact (spin_gpio_reads inp 50000 st).2.1
    have hr : (read_running inp (sample_body inp ipm j arr st).2).2.gpio_reads
        = (sample_body inp ipm j arr st).2.gpio_reads := rfl
    have hi := ih (j + 1) (sample_body inp ipm j arr st).1
      (read_running inp (sample_body inp ipm j arr st).2).2
    rw [for_loop_succ]
    split
    · rw [hr]; omega
    · rw [hr] at hi; omega

/-- C18: for every input and every state, the busy poll of one sample, the loop
`spin` entered with `maxloops = 50000`, is a total function that makes at most
50000 pin reads and makes no pin read after one whose level differs from the
tracked level; one batch, 500 samples at most, makes at most 500 * 50000 pin
reads before the thread yields in `furi_delay_ms`. -/
theorem spin_and_batch_bounded (inp : DsInput) (ipm : Nat) (st : DsState) :
    (spin inp 50000 st).2.gpio_reads ≤ st.gpio_reads + 50000 ∧
    (∀ i, st.gpio_reads ≤ i → inp.gpio i ≠ st.last_level →
      (spin inp 50000 st).2.gpio_reads ≤ i + 1) ∧
    (batch inp ipm st).gpio_reads ≤ st.gpio_reads + 500 * 50000 ∧
    (batch inp ipm st).events.getLast? = some (DsEvent.delay_ms 50) := by
  refine ⟨(spin_gpio_reads inp 50000 st).2.1, (spin_gpio_reads inp 50000 st).2.2, ?_, ?_⟩
  · exact for_loop_gpio_reads inp ipm 500 0 { l := [], d := [] } st
  · simp [batch, DsState.emit]

/-! ## Direct sampling worker: events of one sample -/

theorem cyc_reads_append (xs ys : List DsEvent) :
    cyc_reads (xs ++ ys) = cyc_reads xs ++ cyc_reads ys := by
  simp [cyc_reads, List.filterMap_append]

theorem polls_sink (A : List DsEvent) (h : ∀ e ∈ A, e.is_poll = true) :
    sink A = [] ∧ cyc_reads A = [] := by
  induction A with
  | nil => exact ⟨rfl, rfl⟩
  | cons e es ih =>
    have he := h e (List.mem_cons_self _ _)
    obtain ⟨h1, h2⟩ := ih (fun x hx => h x (List.mem_cons_of_mem _ hx))
    cases e <;> simp_all [sink, cyc_reads, DsEvent.sample, DsEvent.cyc?, DsEvent.is_poll]

/-- The loop `spin` changes the state by reads only: it appends reads of the
flag and of the pin to the events, advances the two read counters, and leaves
the tracked level, the interval start and the clock read counter alone. -/
theorem spin_events (inp : DsInput) (m : Nat) (st : DsState) :
    ∃ A : List DsEvent,
      (∀ e ∈ A, e.is_poll = true) ∧
      (spin inp m st).2 =
        { st with
          gpio_reads := (spin inp m st).2.gpio_reads,
          running_reads := (spin inp m st).2.running_reads,
          events := st.events ++ A } := by
  induction m generalizing st with
  | zero => exact ⟨[], by simp, by simp [spin_zero]⟩
  | succ n ih =>
    rw [spin_succ]
    split
    · exact ⟨[DsEvent.running_read (inp.running st.running_reads)],
        by simp [DsEvent.is_poll], by simp [read_running]⟩
    · split
      · exact ⟨[DsEvent.running_read (inp.running st.running_reads),
          DsEvent.gpio_read (inp.gpio st.gpio_reads)],
          by simp [DsEvent.is_poll], by simp [read_running, read_gpio]⟩
      · obtain ⟨A, hA, hs⟩ := ih (read_gpio inp (read_running inp st).2).2
        refine ⟨DsEvent.running_read (inp.running st.running_reads) ::
          DsEvent.gpio_read (inp.gpio st.gpio_reads) :: A, ?_, ?_⟩
        · intro e he
          simp only [List.mem_cons] at he
          rcases he with rfl | rfl | he
          · rfl
          · rfl
          · exact hA e he
        · rw [hs]
          simp [read_running, read_gpio]

/-- The part of the `for` body after the spin, in full: the log line and the
tick when `maxloops` is 0, the clock read, the sample with the tracked level
and the difference of the clock read and the interval start modulo `2 ^ 32`
divided by `ipm`, then the tracked level negated and the interval start set to
the value read. -/
theorem record_sample_state (inp : DsInput) (ipm j : Nat) (arr : DsArrays) (m : Nat)
    (st : DsState) :
    (record_sample inp ipm j arr m st).2 =
      { st with
        last_level := !st.last_level,
        last_change_time := inp.cyccnt st.cyccnt_reads % 2 ^ 32,
        cyccnt_reads := st.cyccnt_reads + 1,
        events := st.events ++
          (if m = 0 then [DsEvent.log_max_loops, DsEvent.delay_tick 1] else []) ++
          [DsEvent.cyccnt_read (inp.cyccnt st.cyccnt_reads % 2 ^ 32),
           DsEvent.raw_samples_add st.last_level
            ((inp.cyccnt st.cyccnt_reads % 2 ^ 32 + 2 ^ 32 - st.last_change_time)
              % 2 ^ 32 / ipm)] } := by
  by_cases hm : m = 0 <;> simp [record_sample, hm, DsState.emit, read_cyccnt]

/-! ## Direct sampling worker: the clock -/

theorem deltas_concat (l : List Nat) (y x : Nat) (h : l.getLast? = some y) :
    deltas (l ++ [x]) = deltas l ++ [(x + 2 ^ 32 - y) % 2 ^ 32] := by
  induction l with
  | nil => simp at h
  | cons a t ih =>
    cases t with
    | nil =>
      simp only [List.getLast?_singleton, Option.some.injEq] at h
      subst h
      simp [deltas]
    | cons b rest =>
      have h2 : (b :: rest).getLast? = some y := by
        simpa [List.getLast?_cons_cons] using h
      have := ih h2
      simp only [List.cons_append] at this ⊢
      simp [deltas, this]

theorem deltas_length (l : List Nat) : (deltas l).length + 1 = l.length ∨ l = [] := by
  induction l with
  | nil => exact Or.inr rfl
  | cons a t ih =>
    left
    cases t with
    | nil => simp [deltas]
    | cons b rest =>
      rcases ih with h | h
      · simp only [deltas, List.length_cons] at h ⊢
        omega
      · exact absurd h (by simp)

theorem deltas_sum (l : List Nat) (a z : Nat) (hl : ∀ v ∈ l, v < 2 ^ 32)
    (ha : l.head? = some a) (hz : l.getLast? = some z) :
    (deltas l).sum % 2 ^ 32 = (z + 2 ^ 32 - a) % 2 ^ 32 := by
  induction l generalizing a with
  | nil => simp at ha
  | cons x t ih =>
    simp only [List.head?_cons, Option.some.injEq] at ha
    subst ha
    cases t with
    | nil =>
      simp only [List.getLast?_singleton, Option.some.injEq] at hz
      subst hz
      simp [deltas]
    | cons b rest =>
      have hz2 : (b :: rest).getLast? = some z := by
        simpa [List.getLast?_cons_cons] using hz
      have hb : b < 2 ^ 32 := hl b (by simp)
      have hx : x < 2 ^ 32 := hl x (by simp)
      have hzl : z < 2 ^ 32 := hl z (List.mem_of_mem_getLast? hz)
      have := ih b (fun v hv => hl v (List.mem_cons_of_mem _ hv)) rfl hz2
      simp only [deltas, List.sum_cons]
      norm_num at this hb hx hzl ⊢
      omega

theorem clock_inv_congr (ipm : Nat) (st st2 : DsState) (h : ClockInv ipm st)
    (h1 : cyc_reads st2.events = cyc_reads st.events)
    (h2 : sink st2.events = sink st.events)
    (h3 : st2.last_change_time = st.last_change_time) : ClockInv ipm st2 := by
  unfold ClockInv
  rw [h1, h2, h3]
  exact h

theorem clock_inv_read_running (inp : DsInput) (ipm : Nat) (st : DsState)
    (h : ClockInv ipm st) : ClockInv ipm (read_running inp st).2 :=
  clock_inv_congr ipm st _ h
    (by simp [read_running, cyc_reads_append, cyc_reads, DsEvent.cyc?])
    (by simp [read_running, sink_append, sink, DsEvent.sample]) rfl

theorem clock_inv_emit (ipm : Nat) (st : DsState) (e : DsEvent) (h : ClockInv ipm st)
    (h1 : e.cyc? = none) (h2 : e.sample = none) : ClockInv ipm (st.emit e) :=
  clock_inv_congr ipm st _ h
    (by simp [DsState.emit, cyc_reads_append, cyc_reads, h1])
    (by simp [DsState.emit, sink_append, sink, h2]) rfl

theorem clock_inv_spin (inp : DsInput) (ipm m : Nat) (st : DsState) (h : ClockInv ipm st) :
    ClockInv ipm (spin inp m st).2 := by
  obtain ⟨A, hA, hs⟩ := spin_events inp m st
  obtain ⟨hs1, hs2⟩ := polls_sink A hA
  refine clock_inv_congr ipm st _ h ?_ ?_ ?_
  · rw [hs]; simp [cyc_reads_append, hs2]
  · rw [hs]; simp [sink_append, hs1]
  · rw [hs]

theorem clock_inv_record_sample (inp : DsInput) (ipm j : Nat) (arr : DsArrays) (m : Nat)
    (st : DsState) (h : ClockInv ipm st) :
    ClockInv ipm (record_sample inp ipm j arr m st).2 := by
  obtain ⟨hlast, hlt, hdur⟩ := h
  have hlogs : sink (if m = 0 then [DsEvent.log_max_loops, DsEvent.delay_tick 1] else []) = []
      ∧ cyc_reads (if m = 0 then [DsEvent.log_max_loops, DsEvent.delay_tick 1] else []) = [] := by
    split <;> simp [sink, cyc_reads, DsEvent.sample, DsEvent.cyc?]
  have hc : cyc_reads (record_sample inp ipm j arr m st).2.events
      = cyc_reads st.events ++ [inp.cyccnt st.cyccnt_reads % 2 ^ 32] := by
    rw [record_sample_state]
    simp only [cyc_reads_append, hlogs.2, List.append_nil]
    simp [cyc_reads, DsEvent.cyc?]
  have hk : sink (record_sample inp ipm j arr m st).2.events
      = sink st.events ++ [⟨st.last_level,
          (inp.cyccnt st.cyccnt_reads % 2 ^ 32 + 2 ^ 32 - st.last_change_time)
            % 2 ^ 32 / ipm⟩] := by
    rw [record_sample_state]
    simp only [sink_append, hlogs.1, List.append_nil]
    simp [sink, DsEvent.sample]
  have ht : (record_sample inp ipm j arr m st).2.last_change_time
      = inp.cyccnt st.cyccnt_reads % 2 ^ 32 := by
    rw [record_sample_state]
  unfold ClockInv
  rw [hc, hk, ht]
  refine ⟨by simp, ?_, ?_⟩
  · intro v hv
    rcases List.mem_append.1 hv with hv | hv
    · exact hlt v hv
    · simp only [List.mem_singleton] at hv
      subst hv
      exact Nat.mod_lt _ (by norm_num)
  · rw [deltas_concat _ _ _ hlast]
    simp [hdur]

theorem clock_inv_for_loop (inp : DsInput) (ipm n j : Nat) (arr : DsArrays) (st : DsState)
    (h : ClockInv ipm st) : ClockInv ipm (for_loop inp ipm n j arr st).2 := by
  induction n generalizing j arr st with
  | zero => simpa [for_loop_zero] using h
  | succ n ih =>
    have hb : ClockInv ipm (sample_body inp ipm j arr st).2 :=
      clock_inv_record_sample inp ipm j arr _ _ (clock_inv_spin inp ipm 50000 st h)
    have hr := clock_inv_read_running inp ipm _ hb
    rw [for_loop_succ]
    split
    · exact hr
    · exact ih _ _ _ hr

theorem clock_inv_outer_loop (inp : DsInput) (ipm fuel : Nat) (st : DsState)
    (h : ClockInv ipm st) : ClockInv ipm (outer_loop inp ipm fuel st).2 := by
  induction fuel generalizing st with
  | zero => simpa [outer_loop_zero] using h
  | succ n ih =>
    have hr := clock_inv_read_running inp ipm st h
    rw [outer_loop_succ]
    split
    · exact clock_inv_emit ipm _ _ hr rfl rfl
    · exact ih _ (clock_inv_emit ipm _ _ (clock_inv_emit ipm _ _
        (clock_inv_for_loop inp ipm 500 0 { l := [], d := [] } _ hr) rfl rfl) rfl rfl)

theorem read_running_extends (inp : DsInput) (st : DsState) :
    st.events <+: (read_running inp st).2.events :=
  ⟨_, rfl⟩

theorem emit_extends (st : DsState) (e : DsEvent) : st.events <+: (st.emit e).events :=
  ⟨_, rfl⟩

theorem spin_extends (inp : DsInput) (m : Nat) (st : DsState) :
    st.events <+: (spin inp m st).2.events := by
  obtain ⟨A, _, hs⟩ := spin_events inp m st
  exact ⟨A, by rw [hs]⟩

theorem sample_body_extends (inp : DsInput) (ipm j : Nat) (arr : DsArrays) (st : DsState) :
    st.events <+: (sample_body inp ipm j arr st).2.events := by
  unfold sample_body
  refine (spin_extends inp 50000 st).trans ?_
  rw [record_sample_state]
  exact ⟨_, (List.append_assoc _ _ _).symm⟩

theorem for_loop_extends (inp : DsInput) (ipm n j : Nat) (arr : DsArrays) (st : DsState) :
    st.events <+: (for_loop inp ipm n j arr st).2.events := by
  induction n generalizing j arr st with
  | zero => rw [for_loop_zero]
  | succ n ih =>
    have h1 := (sample_body_extends inp ipm j arr st).trans (read_running_extends inp _)
    rw [for_loop_succ]
    split
    · exact h1
    · exact h1.trans (ih _ _ _)

theorem batch_extends (inp : DsInput) (ipm : Nat) (st : DsState) :
    st.events <+: (batch inp ipm st).events :=
  ((for_loop_extends inp ipm 500 0 { l := [], d := [] } st).trans (emit_extends _ _)).trans
    (emit_extends _ _)

theorem outer_loop_extends (inp : DsInput) (ipm fuel : Nat) (st : DsState) :
    st.events <+: (outer_loop inp ipm fuel st).2.events := by
  induction fuel generalizing st with
  | zero => rw [outer_loop_zero]
  | succ n ih =>
    rw [outer_loop_succ]
    split
    · exact (read_running_extends inp st).trans (emit_extends _ _)
    · exact ((read_running_extends inp st).trans (batch_extends inp ipm _)).trans (ih _)

theorem direct_sampling_thread_eq (inp : DsInput) (ipm fuel : Nat) :
    direct_sampling_thread inp ipm fuel = outer_loop inp ipm fuel (ds_entry inp) := rfl

theorem clock_inv_thread (inp : DsInput) (ipm fuel : Nat) :
    ClockInv ipm (direct_sampling_thread inp ipm fuel).2 ∧
    (cyc_reads (direct_sampling_thread inp ipm fuel).2.events).head?
      = some (inp.cyccnt 0 % 2 ^ 32) := by
  rw [direct_sampling_thread_eq]
  constructor
  · apply clock_inv_outer_loop
    refine ⟨by simp [ds_entry, cyc_reads, DsEvent.cyc?], ?_, by
      simp [ds_entry, cyc_reads, DsEvent.cyc?, sink, DsEvent.sample, deltas]⟩
    intro v hv
    simp only [ds_entry, cyc_reads, DsEvent.cyc?, List.filterMap_cons,
      List.filterMap_nil, List.mem_singleton] at hv
    subst hv
    exact Nat.mod_lt _ (by norm_num)
  · obtain ⟨A, hA⟩ := outer_loop_extends inp ipm fuel (ds_entry inp)
    rw [← hA]
    simp [ds_entry, cyc_reads_append, cyc_reads, DsEvent.cyc?]
theorem deltas_get (l : List Nat) (k a b : Nat) (ha : l[k]? = some a)
    (hb : l[k + 1]? = some b) : (deltas l)[k]? = some ((b + 2 ^ 32 - a) % 2 ^ 32) := by
  induction l generalizing k with
  | nil => simp at ha
  | cons x t ih =>
    cases t with
    | nil => simp at hb
    | cons y rest =>
      cases k with
      | zero =>
        simp only [List.getElem?_cons_zero, Option.some.injEq, zero_add,
          List.getElem?_cons_succ] at ha hb
        subst ha hb
        simp [deltas]
      | succ k =>
        simp only [List.getElem?_cons_succ] at ha hb
        have := ih k ha (by simpa using hb)
        simpa [deltas] using this

/-- C12: in every run of the thread, with `0 < ipm` cycles per microsecond, the
`k`-th sample handed to the sink has the duration
`floor(((n - s) mod 2 ^ 32) / ipm)`, computed in the integers, where `s` is the
`k`-th value read from the 32-bit cycle counter (the interval start) and `n`
the next value read (when the sample is taken).  When the counter has wrapped,
`n < s`, this is `floor((n + 2 ^ 32 - s) / ipm)`; otherwise `floor((n - s) / ipm)`. -/
theorem sample_duration_formula (inp : DsInput) (ipm fuel k : Nat) (_hc : 0 < ipm)
    (hk : k < (sink (direct_sampling_thread inp ipm fuel).2.events).length) :
    ∃ (s n : Nat) (smp : RawSample),
      (cyc_reads (direct_sampling_thread inp ipm fuel).2.events)[k]? = some s ∧
      (cyc_reads (direct_sampling_thread inp ipm fuel).2.events)[k + 1]? = some n ∧
      (sink (direct_sampling_thread inp ipm fuel).2.events)[k]? = some smp ∧
      s < 2 ^ 32 ∧ n < 2 ^ 32 ∧
      (smp.duration : Int) = (((n : Int) - (s : Int)) % 2 ^ 32) / (ipm : Int) ∧
      (n < s → smp.duration = (n + 2 ^ 32 - s) / ipm) ∧
      (s ≤ n → smp.duration = (n - s) / ipm) := by
  obtain ⟨⟨hlast, hlt, hdur⟩, hhead⟩ := clock_inv_thread inp ipm fuel
  generalize (direct_sampling_thread inp ipm fuel).2 = st at *
  have hlen : (deltas (cyc_reads st.events)).length = (sink st.events).length := by
    have := congrArg List.length hdur
    simpa using this.symm
  have hlen2 : (cyc_reads st.events).length = (sink st.events).length + 1 := by
    rcases deltas_length (cyc_reads st.events) with h | h
    · omega
    · rw [h] at hhead; simp at hhead
  have hk1 : k < (cyc_reads st.events).length := by omega
  have hk2 : k + 1 < (cyc_reads st.events).length := by omega
  refine ⟨(cyc_reads st.events)[k], (cyc_reads st.events)[k + 1], (sink st.events)[k],
    List.getElem?_eq_getElem hk1, List.getElem?_eq_getElem hk2, List.getElem?_eq_getElem hk,
    hlt _ (List.getElem_mem _), hlt _ (List.getElem_mem _), ?_⟩
  have hs : (cyc_reads st.events)[k] < 2 ^ 32 := hlt _ (List.getElem_mem _)
  have hn : (cyc_reads st.events)[k + 1] < 2 ^ 32 := hlt _ (List.getElem_mem _)
  have hd := deltas_get (cyc_reads st.events) k _ _ (List.getElem?_eq_getElem hk1)
    (List.getElem?_eq_getElem hk2)
  have hm : ((sink st.events).map RawSample.duration)[k]?
      = ((deltas (cyc_reads st.events)).map (fun x => x / ipm))[k]? := by rw [hdur]
  rw [List.getElem?_map, List.getElem?_map, hd, List.getElem?_eq_getElem hk] at hm
  simp only [Option.map_some', Option.some.injEq] at hm
  generalize (cyc_reads st.events)[k] = s at *
  generalize (cyc_reads st.events)[k + 1] = n at *
  generalize (sink st.events)[k] = smp at *
  rw [hm]
  norm_num at hs hn ⊢
  refine ⟨?_, ?_, ?_⟩
  · congr 1
    omega
  · intro h
    congr 1
    omega
  · intro h
    congr 1
    omega

/-- C12, at a concrete input: the interval starts at counter value
`2 ^ 32 - 3200` and the transition is seen at counter value 3200, after the
counter has wrapped; with 64 cycles per microsecond the duration is 100. -/
theorem sample_duration_formula_witness :
    ∃ (s n : Nat) (smp : RawSample),
      (cyc_reads (direct_sampling_thread
        (DsInput.of_lists [true] [4294964096, 3200] 2) 64 2).2.events)[0]? = some s ∧
      (cyc_reads (direct_sampling_thread
        (DsInput.of_lists [true] [4294964096, 3200] 2) 64 2).2.events)[0 + 1]? = some n ∧
      (sink (direct_sampling_thread
        (DsInput.of_lists [true] [4294964096, 3200] 2) 64 2).2.events)[0]? = some smp ∧
      s < 2 ^ 32 ∧ n < 2 ^ 32 ∧
      (smp.duration : Int) = (((n : Int) - (s : Int)) % 2 ^ 32) / ((64 : Nat) : Int) ∧
      (n < s → smp.duration = (n + 2 ^ 32 - s) / 64) ∧
      (s ≤ n → smp.duration = (n - s) / 64) :=
  sample_duration_formula (DsInput.of_lists [true] [4294964096, 3200] 2) 64 2 0
    (by decide) (by decide)

/-- C19: in every run of the thread the clock is read once at the start and once
for each sample and at no other point, so nothing restarts an interval after
the batch yield or the debug printing.  The duration of each sample is the
difference modulo `2 ^ 32` between the value read for it and the value read
before it (the thread start for the first sample) divided by the cycles per
microsecond, the interval start the thread holds is the last value read, and
the differences add up, modulo `2 ^ 32`, to the last value read minus the value
read at the thread start. -/
theorem intervals_contiguous (inp : DsInput) (ipm fuel : Nat) :
    (cyc_reads (direct_sampling_thread inp ipm fuel).2.events).length
      = (sink (direct_sampling_thread inp ipm fuel).2.events).length + 1 ∧
    (cyc_reads (direct_sampling_thread inp ipm fuel).2.events).head?
      = some (inp.cyccnt 0 % 2 ^ 32) ∧
    (cyc_reads (direct_sampling_thread inp ipm fuel).2.events).getLast?
      = some (direct_sampling_thread inp ipm fuel).2.last_change_time ∧
    (sink (direct_sampling_thread inp ipm fuel).2.events).map RawSample.duration
      = (deltas (cyc_reads (direct_sampling_thread inp ipm fuel).2.events)).map
          (fun x => x / ipm) ∧
    (deltas (cyc_reads (direct_sampling_thread inp ipm fuel).2.events)).sum % 2 ^ 32
      = ((direct_sampling_thread inp ipm fuel).2.last_change_time + 2 ^ 32
          - inp.cyccnt 0 % 2 ^ 32) % 2 ^ 32 := by
  obtain ⟨⟨hlast, hlt, hdur⟩, hhead⟩ := clock_inv_thread inp ipm fuel
  generalize (direct_sampling_thread inp ipm fuel).2 = st at *
  have hlen : (deltas (cyc_reads st.events)).length = (sink st.events).length := by
    have := congrArg List.length hdur
    simpa using this.symm
  refine ⟨?_, hhead, hlast, hdur, deltas_sum _ _ _ hlt hhead hlast⟩
  rcases deltas_length (cyc_reads st.events) with h | h
  · omega
  · rw [h] at hhead; simp at hhead

/-! ## Direct sampling worker: how a busy poll ends -/

theorem polls_is_poll (lvl : Bool) (p : Nat) : ∀ e ∈ polls lvl p, e.is_poll = true := by
  induction p with
  | zero => simp [polls]
  | succ p ih =>
    intro e he
    simp only [polls, List.mem_cons] at he
    rcases he with rfl | rfl | he
    · rfl
    · rfl
    · exact ih e he

theorem spin_polls (inp : DsInput) (p m : Nat) (st : DsState) (hp : p ≤ m)
    (h : ∀ i, i < p → inp.running (st.running_reads + i) = true ∧
      inp.gpio (st.gpio_reads + i) = st.last_level) :
    spin inp m st = spin inp (m - p) (st.polled p) := by
  induction p generalizing m st with
  | zero => simp [DsState.polled, polls]
  | succ p ih =>
    obtain ⟨m, rfl⟩ : ∃ k, m = k + 1 := ⟨m - 1, by omega⟩
    have h0 := h 0 (Nat.succ_pos _)
    simp only [Nat.add_zero] at h0
    have hr : (read_running inp st).1 = true := h0.1
    have hg : (read_gpio inp (read_running inp st).2).1 = st.last_level := h0.2
    have hl : (read_gpio inp (read_running inp st).2).2.last_level = st.last_level := rfl
    rw [spin_succ, hr, hg, hl]
    simp only [Bool.not_true, Bool.false_eq_true, if_false, bne_self_eq_false]
    rw [ih m (read_gpio inp (read_running inp st).2).2 (by omega)]
    · have e1 : m + 1 - (p + 1) = m - p := by omega
      have e2 : (read_gpio inp (read_running inp st).2).2.polled p = st.polled (p + 1) := by
        simp only [DsState.polled, read_gpio, read_running, polls, h0.1, h0.2,
          List.append_assoc, List.singleton_append, Nat.add_assoc, Nat.add_comm 1 p]
        rfl
      rw [e1, e2]
    · intro i hi
      have := h (i + 1) (by omega)
      simpa [read_gpio, read_running, Nat.add_assoc, Nat.add_comm 1 i] using this

/-- The busy poll that runs out: when the flag reads set and the pin reads the
tracked level on `m` passes, the loop entered with `maxloops = m` leaves
`maxloops` at `2 ^ 32 - 1`. -/
theorem spin_exhausted (inp : DsInput) (m : Nat) (st : DsState)
    (h : ∀ i, i < m → inp.running (st.running_reads + i) = true ∧
      inp.gpio (st.gpio_reads + i) = st.last_level) :
    spin inp m st = (2 ^ 32 - 1, st.polled m) := by
  rw [spin_polls inp m m st (Nat.le_refl _) h, Nat.sub_self, spin_zero]

/-- The busy poll that sees a transition on pass `p + 1`: it leaves `maxloops`
at `m - p - 1`. -/
theorem spin_transition (inp : DsInput) (p m : Nat) (st : DsState) (hp : p < m)
    (h : ∀ i, i < p → inp.running (st.running_reads + i) = true ∧
      inp.gpio (st.gpio_reads + i) = st.last_level)
    (hr : inp.running (st.running_reads + p) = true)
    (hg : inp.gpio (st.gpio_reads + p) = !st.last_level) :
    spin inp m st = (m - p - 1,
      { st with
        gpio_reads := st.gpio_reads + p + 1,
        running_reads := st.running_reads + p + 1,
        events := st.events ++ polls st.last_level p ++
          [DsEvent.running_read true, DsEvent.gpio_read (!st.last_level)] }) := by
  obtain ⟨k, hk⟩ : ∃ k, m - p = k + 1 := ⟨m - p - 1, by omega⟩
  rw [spin_polls inp p m st (Nat.le_of_lt hp) h, hk, spin_succ]
  have e1 : (read_running inp (st.polled p)).1 = true := hr
  have e2 : (read_gpio inp (read_running inp (st.polled p)).2).1 = !st.last_level := hg
  have e3 : (read_gpio inp (read_running inp (st.polled p)).2).2.last_level
      = st.last_level := rfl
  rw [e1, e2, e3]
  have hk2 : m - p - 1 = k := by omega
  cases hlv : st.last_level <;>
    simp [hk2, DsState.polled, read_gpio, read_running, hr, hg, hlv]

/-- The busy poll that is stopped on pass `p + 1`: the flag reads cleared, no
pin read follows, and `maxloops` is left at `m - p - 1`. -/
theorem spin_stopped (inp : DsInput) (p m : Nat) (st : DsState) (hp : p < m)
    (h : ∀ i, i < p → inp.running (st.running_reads + i) = true ∧
      inp.gpio (st.gpio_reads + i) = st.last_level)
    (hr : inp.running (st.running_reads + p) = false) :
    spin inp m st = (m - p - 1,
      { st with
        gpio_reads := st.gpio_reads + p,
        running_reads := st.running_reads + p + 1,
        events := st.events ++ polls st.last_level p ++ [DsEvent.running_read false] }) := by
  obtain ⟨k, hk⟩ : ∃ k, m - p = k + 1 := ⟨m - p - 1, by omega⟩
  rw [spin_polls inp p m st (Nat.le_of_lt hp) h, hk, spin_succ]
  have e1 : (read_running inp (st.polled p)).1 = false := hr
  rw [e1]
  have hk2 : m - p - 1 = k := by omega
  simp [hk2, DsState.polled, read_running, hr]

/-- A run in which the flag reads set when the thread starts and cleared at the
check after the first sample: the thread returns 0 after that sample. -/
theorem thread_single_sample (inp : DsInput) (ipm fuel : Nat) (s : DsArrays × DsState)
    (h0 : inp.running 0 = true)
    (hs : sample_body inp ipm 0 { l := [], d := [] } (read_running inp (ds_entry inp)).2 = s)
    (h1 : inp.running s.2.running_reads = false)
    (h2 : inp.running (s.2.running_reads + 1) = false) :
    direct_sampling_thread inp ipm (fuel + 2) = (some 0,
      { s.2 with
        running_reads := s.2.running_reads + 2,
        events := s.2.events ++
          [DsEvent.running_read false, DsEvent.debug_print s.1.l s.1.d, DsEvent.delay_ms 50,
           DsEvent.running_read false, DsEvent.log_exiting] }) := by
  have e0 : (read_running inp (ds_entry inp)).1 = true := h0
  have e1 : (read_running inp s.2).1 = false := h1
  have hb : batch inp ipm (read_running inp (ds_entry inp)).2 =
      (((read_running inp s.2).2.emit (DsEvent.debug_print s.1.l s.1.d)).emit
        (DsEvent.delay_ms 50)) := by
    unfold batch
    rw [show (500 : Nat) = 499 + 1 from rfl, for_loop_succ, hs, e1]
    simp
  have e2 : (read_running inp (((read_running inp s.2).2.emit
      (DsEvent.debug_print s.1.l s.1.d)).emit (DsEvent.delay_ms 50))).1 = false := h2
  rw [direct_sampling_thread_eq, outer_loop_succ, e0]
  simp only [Bool.not_true, Bool.false_eq_true, if_false]
  rw [hb, outer_loop_succ, e2]
  simp [read_running, DsState.emit, h1, h2]

theorem stuck_low_spin :
    spin (DsInput.of_lists [] [0, 6400] 50001) 50000
      (read_running (DsInput.of_lists [] [0, 6400] 50001)
        (ds_entry (DsInput.of_lists [] [0, 6400] 50001))).2
      = (2 ^ 32 - 1, (read_running (DsInput.of_lists [] [0, 6400] 50001)
        (ds_entry (DsInput.of_lists [] [0, 6400] 50001))).2.polled 50000) := by
  apply spin_exhausted
  intro i hi
  constructor
  · simp only [DsInput.of_lists, read_running, ds_entry, decide_eq_true_eq]
    omega
  · simp [DsInput.of_lists, read_running, ds_entry]

/-- A run with one sample, in terms of how the busy poll of that sample ends:
the flag reads set when the thread starts, the poll leaves `maxloops` at `m`
and the state at `s`, and the flag reads cleared at the check after the
sample. -/
theorem thread_single_spin (inp : DsInput) (ipm fuel m : Nat) (s : DsState)
    (h0 : inp.running 0 = true)
    (hs : spin inp 50000 (read_running inp (ds_entry inp)).2 = (m, s))
    (h1 : inp.running s.running_reads = false)
    (h2 : inp.running (s.running_reads + 1) = false) :
    direct_sampling_thread inp ipm (fuel + 2) = (some 0,
      { last_level := !s.last_level,
        last_change_time := inp.cyccnt s.cyccnt_reads % 2 ^ 32,
        gpio_reads := s.gpio_reads,
        cyccnt_reads := s.cyccnt_reads + 1,
        running_reads := s.running_reads + 2,
        events := s.events ++
          (if m = 0 then [DsEvent.log_max_loops, DsEvent.delay_tick 1] else []) ++
          [DsEvent.cyccnt_read (inp.cyccnt s.cyccnt_reads % 2 ^ 32),
           DsEvent.raw_samples_add s.last_level
             ((inp.cyccnt s.cyccnt_reads % 2 ^ 32 + 2 ^ 32 - s.last_change_time) % 2 ^ 32 / ipm),
           DsEvent.running_read false,
           DsEvent.debug_print [s.last_level.toNat]
             [(inp.cyccnt s.cyccnt_reads % 2 ^ 32 + 2 ^ 32 - s.last_change_time)
               % 2 ^ 32 / ipm % 2 ^ 16],
           DsEvent.delay_ms 50, DsEvent.running_read false, DsEvent.log_exiting] }) := by
  have hb : sample_body inp ipm 0 { l := [], d := [] } (read_running inp (ds_entry inp)).2
      = record_sample inp ipm 0 { l := [], d := [] } m s := by
    unfold sample_body
    rw [hs]
  have hr : (record_sample inp ipm 0 { l := [], d := [] } m s).2.running_reads
      = s.running_reads := by
    rw [record_sample_state]
  rw [thread_single_sample inp ipm fuel _ h0 hb (by rw [hr]; exact h1) (by rw [hr]; exact h2)]
  have h1' : (record_sample inp ipm 0 { l := [], d := [] } m s).1
      = { l := [s.last_level.toNat],
          d := [(inp.cyccnt s.cyccnt_reads % 2 ^ 32 + 2 ^ 32 - s.last_change_time)
            % 2 ^ 32 / ipm % 2 ^ 16] } := by
    by_cases hm : m = 0 <;> simp [record_sample, hm, DsState.emit, read_cyccnt]
  rw [h1', record_sample_state]
  simp

theorem thread_stuck_low :
    direct_sampling_thread (DsInput.of_lists [] [0, 6400] 50001) 64 2 = (some 0,
      { last_level := true, last_change_time := 6400, gpio_reads := 50000, cyccnt_reads := 2,
        running_reads := 50003,
        events := [DsEvent.cyccnt_read 0, DsEvent.running_read true] ++ polls false 50000 ++
          [DsEvent.cyccnt_read 6400, DsEvent.raw_samples_add false 100,
           DsEvent.running_read false, DsEvent.debug_print [0] [100], DsEvent.delay_ms 50,
           DsEvent.running_read false, DsEvent.log_exiting] }) := by
  rw [thread_single_spin (DsInput.of_lists [] [0, 6400] 50001) 64 0 _ _ (by decide)
    stuck_low_spin (by decide) (by decide)]
  simp only [DsState.polled, read_running, ds_entry, DsInput.of_lists]
  obtain ⟨P, hP⟩ : ∃ P, polls false 50000 = P := ⟨_, rfl⟩
  rw [hP]
  simp

theorem late_edge_spin :
    spin late_edge_input 50000 (read_running late_edge_input (ds_entry late_edge_input)).2
      = (0,
        { last_level := false, last_change_time := 0, gpio_reads := 50000, cyccnt_reads := 1,
          running_reads := 50001,
          events := [DsEvent.cyccnt_read 0, DsEvent.running_read true] ++ polls false 49999 ++
            [DsEvent.running_read true, DsEvent.gpio_read true] }) := by
  rw [spin_transition _ 49999 50000 _ (by decide)]
  · simp only [read_running, ds_entry, late_edge_input]
    obtain ⟨P, hP⟩ : ∃ P, polls false 49999 = P := ⟨_, rfl⟩
    rw [hP]
    simp
  · intro i hi
    constructor
    · simp only [late_edge_input, read_running, ds_entry, decide_eq_true_eq]
      omega
    · simp only [late_edge_input, read_running, ds_entry, Nat.zero_add, decide_eq_false_iff_not]
      omega
  · simp [late_edge_input, read_running, ds_entry]
  · simp [late_edge_input, read_running, ds_entry]

theorem thread_late_edge :
    direct_sampling_thread late_edge_input 64 2 = (some 0,
      { last_level := true, last_change_time := 6400, gpio_reads := 50000, cyccnt_reads := 2,
        running_reads := 50003,
        events := [DsEvent.cyccnt_read 0, DsEvent.running_read true] ++ polls false 49999 ++
          [DsEvent.running_read true, DsEvent.gpio_read true,
           DsEvent.log_max_loops, DsEvent.delay_tick 1,
           DsEvent.cyccnt_read 6400, DsEvent.raw_samples_add false 100,
           DsEvent.running_read false, DsEvent.debug_print [0] [100], DsEvent.delay_ms 50,
           DsEvent.running_read false, DsEvent.log_exiting] }) := by
  rw [thread_single_spin _ 64 0 _ _ (by decide) late_edge_spin (by decide) (by decide)]
  simp only [late_edge_input]
  obtain ⟨P, hP⟩ : ∃ P, polls false 49999 = P := ⟨_, rfl⟩
  rw [hP]
  simp

/-! ## Direct sampling worker: samples without a transition -/

/-- C13 (the code at a failing input): the pin reads low, the tracked level, on
every read, and the flag reads set on each of the 50000 passes of the first
busy poll and cleared afterwards.  The thread makes 50000 pin reads, none of
them high, and yet hands the sample (low, 100) to the sink and sets its
tracked level to high. -/
theorem exhausted_poll_appends_sample :
    (∀ k, (DsInput.of_lists [] [0, 6400] 50001).gpio k = false) ∧
    (∀ k, k < 50001 → (DsInput.of_lists [] [0, 6400] 50001).running k = true) ∧
    (direct_sampling_thread (DsInput.of_lists [] [0, 6400] 50001) 64 2).1 = some 0 ∧
    (direct_sampling_thread (DsInput.of_lists [] [0, 6400] 50001) 64 2).2.gpio_reads = 50000 ∧
    (∀ e ∈ (direct_sampling_thread (DsInput.of_lists [] [0, 6400] 50001) 64 2).2.events,
      e ≠ DsEvent.gpio_read true) ∧
    sink (direct_sampling_thread (DsInput.of_lists [] [0, 6400] 50001) 64 2).2.events
      = [{ level := false, duration := 100 }] ∧
    (direct_sampling_thread (DsInput.of_lists [] [0, 6400] 50001) 64 2).2.last_level
      = true := by
  rw [thread_stuck_low]
  refine ⟨fun k => by simp [DsInput.of_lists], fun k hk => by simp [DsInput.of_lists, hk],
    rfl, rfl, ?_, ?_, rfl⟩
  · intro e he
    simp only [List.mem_append, List.mem_cons, List.mem_singleton, List.not_mem_nil,
      or_false] at he
    rcases he with (he | he) | he
    · rcases he with rfl | rfl <;> simp
    · have := polls_is_poll false 50000 e he
      intro h
      subst h
      have hx : ∀ p, DsEvent.gpio_read true ∉ polls false p := by
        intro p
        induction p with
        | zero => simp [polls]
        | succ p ih => simp [polls, ih]
      exact hx 50000 he
    · rcases he with rfl | rfl | rfl | rfl | rfl | rfl | rfl <;> simp
  · rw [sink_append, sink_append, (polls_sink _ (polls_is_poll false 50000)).1]
    simp [sink, DsEvent.sample]

/-- C14 (the code at a failing input): the flag reads set when the thread starts
and cleared on the first pass of the first busy poll, before any pin read.
When the flag is read as cleared the sink is empty; the thread then reads the
clock, hands the sample (low, 100) to the sink, and returns. -/
theorem stopped_poll_appends_sample :
    (direct_sampling_thread (DsInput.of_lists [] [0, 6400] 1) 64 2).1 = some 0 ∧
    (direct_sampling_thread (DsInput.of_lists [] [0, 6400] 1) 64 2).2.events
      = [DsEvent.cyccnt_read 0, DsEvent.running_read true, DsEvent.running_read false] ++
        [DsEvent.cyccnt_read 6400, DsEvent.raw_samples_add false 100,
         DsEvent.running_read false, DsEvent.debug_print [0] [100], DsEvent.delay_ms 50,
         DsEvent.running_read false, DsEvent.log_exiting] ∧
    sink [DsEvent.cyccnt_read 0, DsEvent.running_read true, DsEvent.running_read false] = [] ∧
    sink (direct_sampling_thread (DsInput.of_lists [] [0, 6400] 1) 64 2).2.events
      = [{ level := false, duration := 100 }] ∧
    (direct_sampling_thread (DsInput.of_lists [] [0, 6400] 1) 64 2).2.gpio_reads = 0 := by
  decide

/-- C17 (the code at two failing inputs).  When the pin reads the tracked level
on all 50000 passes of the busy poll with the flag set, `maxloops` is left at
`2 ^ 32 - 1`, not 0, and nothing is logged and no tick yielded.  When the
transition is seen on the 50000th pass, `maxloops` is left at 0, and the line
"Max loops reached in DS" is logged and one tick yielded right after the pin
read that saw the transition. -/
theorem max_loops_log_misplaced :
    (spin (DsInput.of_lists [] [0, 6400] 50001) 50000
      (read_running (DsInput.of_lists [] [0, 6400] 50001)
        (ds_entry (DsInput.of_lists [] [0, 6400] 50001))).2).1 = 2 ^ 32 - 1 ∧
    DsEvent.log_max_loops ∉
      (direct_sampling_thread (DsInput.of_lists [] [0, 6400] 50001) 64 2).2.events ∧
    DsEvent.delay_tick 1 ∉
      (direct_sampling_thread (DsInput.of_lists [] [0, 6400] 50001) 64 2).2.events ∧
    (spin late_edge_input 50000
      (read_running late_edge_input (ds_entry late_edge_input)).2).1 = 0 ∧
    (direct_sampling_thread late_edge_input 64 2).2.events
      = [DsEvent.cyccnt_read 0, DsEvent.running_read true] ++ polls false 49999 ++
        [DsEvent.running_read true, DsEvent.gpio_read true,
         DsEvent.log_max_loops, DsEvent.delay_tick 1,
         DsEvent.cyccnt_read 6400, DsEvent.raw_samples_add false 100,
         DsEvent.running_read false, DsEvent.debug_print [0] [100], DsEvent.delay_ms 50,
         DsEvent.running_read false, DsEvent.log_exiting] := by
  have hx : ∀ (e : DsEvent), e.is_poll = false → e ∉
      (direct_sampling_thread (DsInput.of_lists [] [0, 6400] 50001) 64 2).2.events ∨
      e ∈ [DsEvent.cyccnt_read 0, DsEvent.cyccnt_read 6400, DsEvent.raw_samples_add false 100,
        DsEvent.debug_print [0] [100], DsEvent.delay_ms 50, DsEvent.log_exiting] := by
    intro e hp
    rw [thread_stuck_low]
    by_cases he : e ∈ [DsEvent.cyccnt_read 0, DsEvent.cyccnt_read 6400,
        DsEvent.raw_samples_add false 100, DsEvent.debug_print [0] [100], DsEvent.delay_ms 50,
        DsEvent.log_exiting]
    · exact Or.inr he
    · left
      intro hmem
      simp only [List.mem_append, List.mem_cons, List.mem_singleton, List.not_mem_nil,
        or_false] at hmem he
      rcases hmem with (hmem | hmem) | hmem
      · rcases hmem with rfl | rfl
        · exact he (Or.inl rfl)
        · simp [DsEvent.is_poll] at hp
      · rw [polls_is_poll false 50000 e hmem] at hp
        exact absurd hp (by simp)
      · rcases hmem with rfl | rfl | rfl | rfl | rfl | rfl | rfl
        · exact he (Or.inr (Or.inl rfl))
        · exact he (Or.inr (Or.inr (Or.inl rfl)))
        · simp [DsEvent.is_poll] at hp
        · exact he (Or.inr (Or.inr (Or.inr (Or.inl rfl))))
        · exact he (Or.inr (Or.inr (Or.inr (Or.inr (Or.inl rfl)))))
        · simp [DsEvent.is_poll] at hp
        · exact he (Or.inr (Or.inr (Or.inr (Or.inr (Or.inr rfl)))))
  refine ⟨by rw [stuck_low_spin], ?_, ?_, by rw [late_edge_spin], thread_late_edge ▸ rfl⟩
  · rcases hx DsEvent.log_max_loops rfl with h | h
    · exact h
    · simp at h
  · rcases hx (DsEvent.delay_tick 1) rfl with h | h
    · exact h
    · simp at h

/-! ## Direct sampling worker: after the flag is cleared -/

theorem spin_clear (inp : DsInput) (R : Nat)
    (hset : ∀ i, i < R → inp.running i = true) (hclr : ∀ i, R ≤ i → inp.running i = false)
    (m : Nat) (st : DsState) (hst : st.running_reads ≤ R) :
    (st.running_reads ≤ (spin inp m st).2.running_reads ∧
      (spin inp m st).2.running_reads ≤ R ∧
      ∃ A, (spin inp m st).2.events = st.events ++ A ∧ DsEvent.running_read false ∉ A) ∨
    ((spin inp m st).2.running_reads = R + 1 ∧
      ∃ A, (spin inp m st).2.events = st.events ++ A ++ [DsEvent.running_read false] ∧
        DsEvent.running_read false ∉ A) := by
  induction m generalizing st with
  | zero =>
    rw [spin_zero]
    exact Or.inl ⟨Nat.le_refl _, hst, [], by simp, by simp⟩
  | succ n ih =>
    rw [spin_succ]
    rcases Nat.eq_or_lt_of_le hst with heq | hlt
    · have hr : (read_running inp st).1 = false := hclr _ (Nat.le_of_eq heq.symm)
      rw [hr]
      simp only [Bool.not_false, if_true]
      refine Or.inr ⟨by simp [read_running, heq], [], ?_, by simp⟩
      have : inp.running st.running_reads = false := hr
      simp [read_running, this]
    · have hr : (read_running inp st).1 = true := hset _ hlt
      have hrr : inp.running st.running_reads = true := hr
      rw [hr]
      simp only [Bool.not_true, Bool.false_eq_true, if_false]
      split
      · refine Or.inl ⟨by simp [read_gpio, read_running], by
          simp only [read_gpio, read_running]; omega,
          [DsEvent.running_read true, DsEvent.gpio_read (inp.gpio st.gpio_reads)], ?_, by simp⟩
        simp [read_gpio, read_running, hrr]
      · have hev : (read_gpio inp (read_running inp st).2).2.events
            = st.events ++ [DsEvent.running_read true,
                DsEvent.gpio_read (inp.gpio st.gpio_reads)] := by
          simp [read_gpio, read_running, hrr]
        have hcnt : (read_gpio inp (read_running inp st).2).2.running_reads
            = st.running_reads + 1 := rfl
        rcases ih (read_gpio inp (read_running inp st).2).2 (by rw [hcnt]; omega) with
          ⟨h1, h2, A, hA, hq⟩ | ⟨h2, A, hA, hq⟩
        · refine Or.inl ⟨by rw [hcnt] at h1; omega, h2,
            [DsEvent.running_read true, DsEvent.gpio_read (inp.gpio st.gpio_reads)] ++ A,
            by rw [hA, hev, List.append_assoc], by simp [hq]⟩
        · refine Or.inr ⟨h2,
            [DsEvent.running_read true, DsEvent.gpio_read (inp.gpio st.gpio_reads)] ++ A,
            by rw [hA, hev]; simp [List.append_assoc], by simp [hq]⟩

theorem record_sample_events (inp : DsInput) (ipm j : Nat) (arr : DsArrays) (m : Nat)
    (st : DsState) :
    (record_sample inp ipm j arr m st).2.running_reads = st.running_reads ∧
    ∃ (logs : List DsEvent) (n : Nat) (lvl : Bool) (dur : Nat),
      (logs = [] ∨ logs = [DsEvent.log_max_loops, DsEvent.delay_tick 1]) ∧
      (record_sample inp ipm j arr m st).2.events
        = st.events ++ logs ++ [DsEvent.cyccnt_read n, DsEvent.raw_samples_add lvl dur] := by
  rw [record_sample_state]
  refine ⟨rfl, _, _, _, _, ?_, rfl⟩
  split
  · exact Or.inr rfl
  · exact Or.inl rfl

theorem for_loop_clear (inp : DsInput) (ipm R : Nat)
    (hset : ∀ i, i < R → inp.running i = true) (hclr : ∀ i, R ≤ i → inp.running i = false)
    (n j : Nat) (arr : DsArrays) (st : DsState) (hst : st.running_reads ≤ R) :
    (st.running_reads ≤ (for_loop inp ipm n j arr st).2.running_reads ∧
      (for_loop inp ipm n j arr st).2.running_reads ≤ R ∧
      ∃ A, (for_loop inp ipm n j arr st).2.events = st.events ++ A ∧
        DsEvent.running_read false ∉ A) ∨
    (R < (for_loop inp ipm n j arr st).2.running_reads ∧
      ∃ A post, (for_loop inp ipm n j arr st).2.events
          = st.events ++ A ++ DsEvent.running_read false :: post ∧
        DsEvent.running_read false ∉ A ∧ InBatchAfterClear post) := by
  induction n generalizing j arr st with
  | zero =>
    rw [for_loop_zero]
    exact Or.inl ⟨Nat.le_refl _, hst, [], by simp, by simp⟩
  | succ n ih =>
    rw [for_loop_succ]
    obtain ⟨hrs, logs, c, lvl, dur, hlogs, hev⟩ :=
      record_sample_events inp ipm j arr (spin inp 50000 st).1 (spin inp 50000 st).2
    have hsb : sample_body inp ipm j arr st
        = record_sample inp ipm j arr (spin inp 50000 st).1 (spin inp 50000 st).2 := rfl
    rw [← hsb] at hrs hev
    have hq : DsEvent.running_read false ∉ logs := by
      rcases hlogs with rfl | rfl <;> simp
    generalize sample_body inp ipm j arr st = b at hrs hev ⊢
    have hrd : (read_running inp b.2).2.events
        = b.2.events ++ [DsEvent.running_read (inp.running b.2.running_reads)] := rfl
    have hrc : (read_running inp b.2).2.running_reads = b.2.running_reads + 1 := rfl
    have hrv : (read_running inp b.2).1 = inp.running b.2.running_reads := rfl
    rcases spin_clear inp R hset hclr 50000 st hst with ⟨h1, h2, A, hA, hqA⟩ | ⟨h2, A, hA, hqA⟩
    · rw [← hrs] at h1 h2
      rcases Nat.eq_or_lt_of_le h2 with heq | hlt
      · have hf : inp.running b.2.running_reads = false := hclr _ (Nat.le_of_eq heq.symm)
        rw [hrv, hf]
        simp only [Bool.not_false, if_true]
        refine Or.inr ⟨by rw [hrc]; omega,
          A ++ (logs ++ [DsEvent.cyccnt_read c, DsEvent.raw_samples_add lvl dur]), [], ?_,
          by simp [hqA, hq], Or.inl rfl⟩
        rw [hrd, hf, hev, hA]
        simp [List.append_assoc]
      · have ht : inp.running b.2.running_reads = true := hset _ hlt
        rw [hrv, ht]
        simp only [Bool.not_true, Bool.false_eq_true, if_false]
        have hev2 : (read_running inp b.2).2.events = st.events ++
            (A ++ (logs ++ [DsEvent.cyccnt_read c, DsEvent.raw_samples_add lvl dur]) ++
              [DsEvent.running_read true]) := by
          rw [hrd, ht, hev, hA]
          simp [List.append_assoc]
        rcases ih (j + 1) b.1 (read_running inp b.2).2 (by rw [hrc]; omega) with
          ⟨k1, k2, B, hB, hqB⟩ | ⟨k2, B, post, hB, hqB, hpost⟩
        · refine Or.inl ⟨by rw [hrc] at k1; omega, k2, _, by rw [hB, hev2, List.append_assoc],
            ?_⟩
          simp [hqA, hq, hqB]
        · refine Or.inr ⟨k2, A ++ (logs ++ [DsEvent.cyccnt_read c,
              DsEvent.raw_samples_add lvl dur]) ++ [DsEvent.running_read true] ++ B, post,
            by rw [hB, hev2]; simp [List.append_assoc], ?_, hpost⟩
          simp [hqA, hq, hqB]
    · rw [← hrs] at h2
      have hf : inp.running b.2.running_reads = false := hclr _ (by omega)
      rw [hrv, hf]
      simp only [Bool.not_false, if_true]
      refine Or.inr ⟨by rw [hrc]; omega, A,
        logs ++ [DsEvent.cyccnt_read c, DsEvent.raw_samples_add lvl dur,
          DsEvent.running_read false], ?_, hqA, Or.inr ⟨logs, c, lvl, dur, hlogs, rfl⟩⟩
      rw [hrd, hf, hev, hA]
      simp [List.append_assoc]

theorem outer_loop_clear (inp : DsInput) (ipm R : Nat)
    (hset : ∀ i, i < R → inp.running i = true) (hclr : ∀ i, R ≤ i → inp.running i = false)
    (fuel : Nat) (st : DsState) (hst : st.running_reads ≤ R)
    (hfuel : R + 1 ≤ st.running_reads + fuel) :
    (outer_loop inp ipm fuel st).1 = some 0 ∧
    ∃ pre post, (outer_loop inp ipm fuel st).2.events
        = st.events ++ pre ++ DsEvent.running_read false :: post ∧
      DsEvent.running_read false ∉ pre ∧ AfterClear post := by
  induction fuel generalizing st with
  | zero => omega
  | succ fuel ih =>
    rw [outer_loop_succ]
    have hrc : (read_running inp st).2.running_reads = st.running_reads + 1 := rfl
    have hrv : (read_running inp st).1 = inp.running st.running_reads := rfl
    have hrd : (read_running inp st).2.events
        = st.events ++ [DsEvent.running_read (inp.running st.running_reads)] := rfl
    rcases Nat.eq_or_lt_of_le hst with heq | hlt
    · have hf : inp.running st.running_reads = false := hclr _ (Nat.le_of_eq heq.symm)
      rw [hrv, hf]
      simp only [Bool.not_false, if_true]
      refine ⟨trivial, [], [DsEvent.log_exiting], ?_, by simp, Or.inl rfl⟩
      simp [DsState.emit, hrd, hf]
    · have ht : inp.running st.running_reads = true := hset _ hlt
      rw [hrv, ht]
      simp only [Bool.not_true, Bool.false_eq_true, if_false]
      have hbe : (batch inp ipm (read_running inp st).2).events
          = (for_loop inp ipm 500 0 { l := [], d := [] } (read_running inp st).2).2.events ++
            [DsEvent.debug_print
              (for_loop inp ipm 500 0 { l := [], d := [] } (read_running inp st).2).1.l
              (for_loop inp ipm 500 0 { l := [], d := [] } (read_running inp st).2).1.d,
             DsEvent.delay_ms 50] := by
        simp [batch, DsState.emit]
      have hbc : (batch inp ipm (read_running inp st).2).running_reads
          = (for_loop inp ipm 500 0 { l := [], d := [] } (read_running inp st).2).2.running_reads :=
        rfl
      rcases for_loop_clear inp ipm R hset hclr 500 0 { l := [], d := [] }
          (read_running inp st).2 (by rw [hrc]; omega) with
        ⟨k1, k2, A, hA, hqA⟩ | ⟨k2, A, inb, hA, hqA, hinb⟩
      · rw [← hbc] at k1 k2
        rw [hA, hrd, ht] at hbe
        generalize (for_loop inp ipm 500 0 { l := [], d := [] } (read_running inp st).2).1 = arr
          at hbe
        generalize batch inp ipm (read_running inp st).2 = b at hbe k1 k2 ⊢
        obtain ⟨hret, pre, post, hev, hq, hpost⟩ := ih b k2 (by rw [hrc] at k1; omega)
        refine ⟨hret, [DsEvent.running_read true] ++ A ++
          [DsEvent.debug_print arr.l arr.d, DsEvent.delay_ms 50] ++ pre, post, ?_, ?_, hpost⟩
        · rw [hev, hbe]
          simp [List.append_assoc]
        · simp [hqA, hq]
      · rw [← hbc] at k2
        rw [hA, hrd, ht] at hbe
        generalize (for_loop inp ipm 500 0 { l := [], d := [] } (read_running inp st).2).1 = arr
          at hbe
        generalize batch inp ipm (read_running inp st).2 = b at hbe k2 ⊢
        obtain ⟨f, rfl⟩ : ∃ f, fuel = f + 1 := ⟨fuel - 1, by omega⟩
        have hf : (read_running inp b).1 = false := hclr _ (Nat.le_of_lt k2)
        have hf2 : inp.running b.running_reads = false := hf
        rw [outer_loop_succ, hf]
        simp only [Bool.not_false, if_true]
        refine ⟨trivial, [DsEvent.running_read true] ++ A,
          inb ++ [DsEvent.debug_print arr.l arr.d, DsEvent.delay_ms 50,
            DsEvent.running_read false, DsEvent.log_exiting], ?_, by simp [hqA],
          Or.inr ⟨inb, arr.l, arr.d, hinb, rfl⟩⟩
        simp [DsState.emit, read_running, hbe, hf2, List.append_assoc]

theorem after_clear_facts (post : List DsEvent) (h : AfterClear post) :
    (∀ l, DsEvent.gpio_read l ∉ post) ∧
    DsEvent.running_read true ∉ post ∧
    (sink post).length ≤ 1 ∧
    post.getLast? = some DsEvent.log_exiting := by
  rcases h with rfl | ⟨inb, l, d, hinb, rfl⟩
  · simp [sink, DsEvent.sample]
  · rcases hinb with rfl | ⟨logs, n, lvl, dur, hlogs, rfl⟩
    · simp [sink, DsEvent.sample]
    · rcases hlogs with rfl | rfl <;> simp [sink, DsEvent.sample]

/-- C20: for every input in which the running flag reads set `R` times and
cleared from then on (the flag is cleared once, by `raw_sampling_worker_stop`,
and not set again while the thread exists), the thread, given at least
`R + 1` batches to run, returns 0.  Its events split at the first read of the
flag as cleared, and after that read there is no pin read and no read of the
flag as set (no further batch is started), at most one sample is handed to
the sink, and the thread ends with the exit log line; what follows the read
is one of the shapes of `AfterClear`.  When the flag is already cleared at
the start (`R = 0`), the thread reads the clock and the flag, logs its exit
and hands nothing to the sink. -/
theorem thread_after_clear (inp : DsInput) (ipm R fuel : Nat)
    (hset : ∀ i, i < R → inp.running i = true) (hclr : ∀ i, R ≤ i → inp.running i = false)
    (hfuel : R + 1 ≤ fuel) :
    (direct_sampling_thread inp ipm fuel).1 = some 0 ∧
    (∃ pre post,
      (direct_sampling_thread inp ipm fuel).2.events
        = pre ++ DsEvent.running_read false :: post ∧
      DsEvent.running_read false ∉ pre ∧
      AfterClear post ∧
      (∀ l, DsEvent.gpio_read l ∉ post) ∧
      DsEvent.running_read true ∉ post ∧
      (sink post).length ≤ 1 ∧
      post.getLast? = some DsEvent.log_exiting) ∧
    (R = 0 →
      (direct_sampling_thread inp ipm fuel).2.events
        = [DsEvent.cyccnt_read (inp.cyccnt 0 % 2 ^ 32), DsEvent.running_read false,
           DsEvent.log_exiting] ∧
      sink (direct_sampling_thread inp ipm fuel).2.events = []) := by
  rw [direct_sampling_thread_eq]
  obtain ⟨hret, pre, post, hev, hq, hpost⟩ :=
    outer_loop_clear inp ipm R hset hclr fuel (ds_entry inp) (Nat.zero_le _)
      (by simp only [ds_entry]; omega)
  obtain ⟨f1, f2, f3, f4⟩ := after_clear_facts post hpost
  refine ⟨hret, ⟨(ds_entry inp).events ++ pre, post, hev, ?_, hpost, f1, f2, f3, f4⟩, ?_⟩
  · simp [ds_entry, hq]
  · intro hR
    subst hR
    obtain ⟨f, rfl⟩ : ∃ f, fuel = f + 1 := ⟨fuel - 1, by omega⟩
    have h0 : (read_running inp (ds_entry inp)).1 = false := hclr 0 (Nat.le_refl _)
    have h0' : inp.running 0 = false := h0
    rw [outer_loop_succ, h0]
    simp [DsState.emit, read_running, ds_entry, h0', sink, DsEvent.sample]

/-- C20, at a concrete input: the flag reads set once, when the thread starts,
and cleared on the first pass of the first busy poll. -/
theorem thread_after_clear_witness :
    (direct_sampling_thread (DsInput.of_lists [] [0, 6400] 1) 64 2).1 = some 0 ∧
    (∃ pre post,
      (direct_sampling_thread (DsInput.of_lists [] [0, 6400] 1) 64 2).2.events
        = pre ++ DsEvent.running_read false :: post ∧
      DsEvent.running_read false ∉ pre ∧
      AfterClear post ∧
      (∀ l, DsEvent.gpio_read l ∉ post) ∧
      DsEvent.running_read true ∉ post ∧
      (sink post).length ≤ 1 ∧
      post.getLast? = some DsEvent.log_exiting) :=
  ⟨(thread_after_clear (DsInput.of_lists [] [0, 6400] 1) 64 1 2
      (fun i hi => by simp only [DsInput.of_lists, decide_eq_true_eq]; exact hi)
      (fun i hi => by simp only [DsInput.of_lists, decide_eq_false_iff_not]; omega)
      (Nat.le_refl _)).1,
   (thread_after_clear (DsInput.of_lists [] [0, 6400] 1) 64 1 2
      (fun i hi => by simp only [DsInput.of_lists, decide_eq_true_eq]; exact hi)
      (fun i hi => by simp only [DsInput.of_lists, decide_eq_false_iff_not]; omega)
      (Nat.le_refl _)).2.1⟩

/-! ## Direct sampling worker: following an input line -/

theorem observed_append (S1 S2 : List RawSample) (A1 A2 : List DsEvent)
    (h1 : Observed S1 A1) (h2 : Observed S2 A2) : Observed (S1 ++ S2) (A1 ++ A2) := by
  refine ⟨by rw [sink_append, h1.1, h2.1], ?_⟩
  intro k s hk
  by_cases hlt : k < S1.length
  · rw [List.getElem?_append_left hlt] at hk
    obtain ⟨pre, post, hA, hp⟩ := h1.2 k s hk
    refine ⟨pre, post ++ A2, by rw [hA]; simp, ?_⟩
    rw [hp, List.take_append_of_le_length (Nat.le_of_lt hlt)]
  · have hge : S1.length ≤ k := Nat.le_of_not_lt hlt
    rw [List.getElem?_append_right hge] at hk
    obtain ⟨pre, post, hA, hp⟩ := h2.2 (k - S1.length) s hk
    refine ⟨A1 ++ pre, post, by rw [hA]; simp, ?_⟩
    rw [sink_append, h1.1, hp, List.take_append_eq_append_take, List.take_of_length_le hge]

theorem observed_nil (X : List DsEvent) (h : sink X = []) : Observed [] X :=
  ⟨h, fun k s hk => by simp at hk⟩

theorem observed_pad (S : List RawSample) (X A Y : List DsEvent) (hX : sink X = [])
    (hY : sink Y = []) (h : Observed S A) : Observed S (X ++ A ++ Y) := by
  have := observed_append _ _ _ _ (observed_append _ _ _ _ (observed_nil X hX) h)
    (observed_nil Y hY)
  simpa using this

theorem observed_single (s : RawSample) (pre post : List DsEvent) (h1 : sink pre = [])
    (h2 : sink post = [s]) : Observed [s] (pre ++ DsEvent.gpio_read (!s.level) :: post) := by
  refine ⟨?_, ?_⟩
  · have hc : sink (DsEvent.gpio_read (!s.level) :: post) = sink post := by
      simp [sink, DsEvent.sample]
    rw [sink_append, h1, hc, h2, List.nil_append]
  intro k t hk
  cases k with
  | zero =>
    simp only [List.getElem?_cons_zero, Option.some.injEq] at hk
    subst hk
    exact ⟨pre, post, rfl, by simpa using h1⟩
  | succ k => simp at hk

/-- One pass through the body of the `for` loop on an interval of a line: the
pin reads the tracked level `p` times and then its negation, the flag reads
set throughout, and the clock read is the interval start plus `cycles`. -/
theorem sample_body_line (inp : DsInput) (ipm j : Nat) (arr : DsArrays) (st : DsState)
    (p cycles : Nat) (hp : p < 50000)
    (hg : ∀ i, i < p → inp.gpio (st.gpio_reads + i) = st.last_level)
    (hgd : inp.gpio (st.gpio_reads + p) = !st.last_level)
    (hr : ∀ i, i ≤ p → inp.running (st.running_reads + i) = true)
    (hcy : cycles < 2 ^ 32)
    (hclk : inp.cyccnt st.cyccnt_reads % 2 ^ 32 = (st.last_change_time + cycles) % 2 ^ 32)
    (ht : st.last_change_time < 2 ^ 32) :
    (sample_body inp ipm j arr st).2.last_level = (!st.last_level) ∧
    (sample_body inp ipm j arr st).2.last_change_time = inp.cyccnt st.cyccnt_reads % 2 ^ 32 ∧
    (sample_body inp ipm j arr st).2.gpio_reads = st.gpio_reads + p + 1 ∧
    (sample_body inp ipm j arr st).2.cyccnt_reads = st.cyccnt_reads + 1 ∧
    (sample_body inp ipm j arr st).2.running_reads = st.running_reads + p + 1 ∧
    ∃ A, (sample_body inp ipm j arr st).2.events = st.events ++ A ∧
      Observed [{ level := st.last_level, duration := cycles / ipm }] A := by
  have hsp := spin_transition inp p 50000 st hp
    (fun i hi => ⟨hr i (Nat.le_of_lt hi), hg i hi⟩) (hr p (Nat.le_refl _)) hgd
  have hdur : (inp.cyccnt st.cyccnt_reads % 2 ^ 32 + 2 ^ 32 - st.last_change_time) % 2 ^ 32
      = cycles := by
    rw [hclk]
    norm_num at hcy ht ⊢
    omega
  have hb : (sample_body inp ipm j arr st).2 =
      (record_sample inp ipm j arr (spin inp 50000 st).1 (spin inp 50000 st).2).2 := rfl
  rw [hb, record_sample_state, hsp]
  simp only [hdur]
  refine ⟨trivial, trivial, trivial, trivial, trivial,
    (polls st.last_level p ++ [DsEvent.running_read true]) ++
      DsEvent.gpio_read (!st.last_level) ::
        ((if 50000 - p - 1 = 0 then [DsEvent.log_max_loops, DsEvent.delay_tick 1] else []) ++
          [DsEvent.cyccnt_read (inp.cyccnt st.cyccnt_reads % 2 ^ 32),
           DsEvent.raw_samples_add st.last_level (cycles / ipm)]), ?_, ?_⟩
  · simp [List.append_assoc]
  · apply observed_single { level := st.last_level, duration := cycles / ipm }
    · rw [sink_append, (polls_sink _ (polls_is_poll st.last_level p)).1]
      simp [sink, DsEvent.sample]
    · rw [sink_append]
      split <;> simp [sink, DsEvent.sample]

theorem flag_reads_cons (iv : Interval) (rest : List Interval) :
    flag_reads (iv :: rest) = iv.polls + 2 + flag_reads rest := by
  simp [flag_reads]

theorem flag_reads_append (xs ys : List Interval) :
    flag_reads (xs ++ ys) = flag_reads xs + flag_reads ys := by
  simp [flag_reads]

/-- The `for` loop on the intervals `ivs` of a line, at most as many as it has
iterations left: the flag reads set up to the check after the last of them,
where it either reads cleared or, the iterations being used up, set. -/
theorem for_loop_line (inp : DsInput) (ipm : Nat) (ivs more : List Interval) (n j : Nat)
    (arr : DsArrays) (st : DsState) (hne : ivs ≠ []) (hlen : ivs.length ≤ n)
    (hline : LineFrom inp (ivs ++ more) st.last_level st.gpio_reads st.cyccnt_reads
      st.last_change_time)
    (ht : st.last_change_time < 2 ^ 32)
    (hflags : ∀ i, i + 1 < flag_reads ivs → inp.running (st.running_reads + i) = true)
    (hlast : inp.running (st.running_reads + (flag_reads ivs - 1)) = false ∨
      (ivs.length = n ∧ inp.running (st.running_reads + (flag_reads ivs - 1)) = true)) :
    (for_loop inp ipm n j arr st).2.running_reads = st.running_reads + flag_reads ivs ∧
    LineFrom inp more (for_loop inp ipm n j arr st).2.last_level
      (for_loop inp ipm n j arr st).2.gpio_reads (for_loop inp ipm n j arr st).2.cyccnt_reads
      (for_loop inp ipm n j arr st).2.last_change_time ∧
    (for_loop inp ipm n j arr st).2.last_change_time < 2 ^ 32 ∧
    line_samples ipm (ivs ++ more) st.last_level
      = line_samples ipm ivs st.last_level
        ++ line_samples ipm more (for_loop inp ipm n j arr st).2.last_level ∧
    ∃ A, (for_loop inp ipm n j arr st).2.events = st.events ++ A ∧
      Observed (line_samples ipm ivs st.last_level) A := by
  induction ivs generalizing n j arr st with
  | nil => exact absurd rfl hne
  | cons iv rest ih =>
    obtain ⟨n, rfl⟩ : ∃ k, n = k + 1 := ⟨n - 1, by simp only [List.length_cons] at hlen; omega⟩
    simp only [List.cons_append, LineFrom] at hline
    obtain ⟨hp, hg, hgd, hcy, hclk, hrest⟩ := hline
    have hfr := flag_reads_cons iv rest
    obtain ⟨b1, b2, b3, b4, b5, A, hA, hobs⟩ := sample_body_line inp ipm j arr st iv.polls
      iv.cycles hp hg hgd (fun i hi => hflags i (by omega)) hcy hclk ht
    have hnow : inp.cyccnt st.cyccnt_reads % 2 ^ 32 < 2 ^ 32 := Nat.mod_lt _ (by norm_num)
    rw [for_loop_succ]
    generalize sample_body inp ipm j arr st = b at b1 b2 b3 b4 b5 hA ⊢
    have hrv : (read_running inp b.2).1 = inp.running (st.running_reads + (iv.polls + 1)) := by
      simp only [read_running, b5, Nat.add_assoc]
    have hre : (read_running inp b.2).2.events
        = st.events ++ (A ++ [DsEvent.running_read (read_running inp b.2).1]) := by
      simp only [read_running, hA, List.append_assoc]
    have hrc : (read_running inp b.2).2.running_reads = st.running_reads + (iv.polls + 2) := by
      simp only [read_running, b5]; omega
    have hrl : (read_running inp b.2).2.last_level = !st.last_level := b1
    have hrt : (read_running inp b.2).2.last_change_time
        = inp.cyccnt st.cyccnt_reads % 2 ^ 32 := b2
    have hrg : (read_running inp b.2).2.gpio_reads = st.gpio_reads + iv.polls + 1 := b3
    have hrk : (read_running inp b.2).2.cyccnt_reads = st.cyccnt_reads + 1 := b4
    have hpad : ∀ v : Bool, Observed (line_samples ipm [iv] st.last_level)
        (A ++ [DsEvent.running_read v]) := by
      intro v
      have := observed_append _ _ _ _ hobs
        (observed_nil [DsEvent.running_read v] (by simp [sink, DsEvent.sample]))
      simpa [line_samples] using this
    cases rest with
    | nil =>
      have hidx : flag_reads [iv] - 1 = iv.polls + 1 := by rw [hfr]; simp [flag_reads]
      rw [hidx] at hlast
      have hfin : ∀ s2 : DsState, s2 = (read_running inp b.2).2 →
          s2.running_reads = st.running_reads + flag_reads [iv] ∧
          LineFrom inp more s2.last_level s2.gpio_reads s2.cyccnt_reads s2.last_change_time ∧
          s2.last_change_time < 2 ^ 32 ∧
          line_samples ipm ([iv] ++ more) st.last_level
            = line_samples ipm [iv] st.last_level ++ line_samples ipm more s2.last_level ∧
          ∃ A, s2.events = st.events ++ A ∧ Observed (line_samples ipm [iv] st.last_level) A := by
        intro s2 hs2
        subst hs2
        rw [hrc, hrl, hrt, hrg, hrk, hre]
        refine ⟨by rw [hfr]; simp [flag_reads], hrest, hnow, by simp [line_samples], _, rfl,
          hpad _⟩
      rcases hlast with hf | ⟨hn, htrue⟩
      · rw [hrv, hf]
        simp only [Bool.not_false, if_true]
        exact hfin _ rfl
      · rw [hrv, htrue]
        simp only [Bool.not_true, Bool.false_eq_true, if_false]
        have hn0 : n = 0 := by simpa using hn.symm
        subst hn0
        rw [for_loop_zero]
        exact hfin _ rfl
    | cons iv2 rest2 =>
      have hfr2 := flag_reads_cons iv2 rest2
      have htrue : inp.running (st.running_reads + (iv.polls + 1)) = true :=
        hflags (iv.polls + 1) (by omega)
      rw [hrv, htrue]
      simp only [Bool.not_true, Bool.false_eq_true, if_false]
      have hpad2 := hpad true
      have hre2 := hre
      rw [hrv, htrue] at hre2
      have hlen2 : (iv2 :: rest2).length ≤ n := by
        simp only [List.length_cons] at hlen ⊢; omega
      obtain ⟨c1, c2, c3, c4, A2, hA2, hobs2⟩ := ih n (j + 1) b.1 (read_running inp b.2).2
        (by simp) hlen2
        (by rw [hrl, hrg, hrk, hrt]; exact hrest)
        (by rw [hrt]; exact hnow)
        (by
          intro i hi
          rw [hrc, Nat.add_assoc]
          exact hflags _ (by omega))
        (by
          rw [hrc, Nat.add_assoc]
          have e : iv.polls + 2 + (flag_reads (iv2 :: rest2) - 1)
              = flag_reads (iv :: iv2 :: rest2) - 1 := by omega
          rw [e]
          rcases hlast with hf | ⟨hn, htr⟩
          · exact Or.inl hf
          · exact Or.inr ⟨by simp only [List.length_cons] at hn ⊢; omega, htr⟩)
      rw [hrl] at c4 hobs2
      refine ⟨by rw [c1, hrc]; omega, c2, c3, ?_, A ++ [DsEvent.running_read true] ++ A2, ?_, ?_⟩
      · simp only [List.cons_append, line_samples] at c4 ⊢
        rw [c4]
      · rw [hA2, hre2]
        simp [List.append_assoc]
      · have := observed_append _ _ _ _ hpad2 hobs2
        simpa [line_samples] using this

theorem flag_reads_pos (ivs : List Interval) (h : ivs ≠ []) : 2 ≤ flag_reads ivs := by
  cases ivs with
  | nil => exact absurd rfl h
  | cons iv rest => rw [flag_reads_cons]; omega

theorem outer_loop_line (inp : DsInput) (ipm fuel : Nat) (ivs : List Interval) (st : DsState)
    (hline : LineFrom inp ivs st.last_level st.gpio_reads st.cyccnt_reads st.last_change_time)
    (ht : st.last_change_time < 2 ^ 32)
    (hset : ∀ i, i < stop_index ivs → inp.running (st.running_reads + i) = true)
    (hclr : ∀ i, stop_index ivs ≤ i → inp.running (st.running_reads + i) = false)
    (hfuel : (ivs.length + 499) / 500 + 1 ≤ fuel) :
    (outer_loop inp ipm fuel st).1 = some 0 ∧
    ∃ A, (outer_loop inp ipm fuel st).2.events = st.events ++ A ∧
      Observed (line_samples ipm ivs st.last_level) A := by
  induction fuel generalizing ivs st with
  | zero => omega
  | succ f ih =>
    rw [outer_loop_succ]
    have hrv : (read_running inp st).1 = inp.running (st.running_reads + 0) := rfl
    have hrc : (read_running inp st).2.running_reads = st.running_reads + 1 := rfl
    have hre : (read_running inp st).2.events
        = st.events ++ [DsEvent.running_read (read_running inp st).1] := rfl
    by_cases hne : ivs = []
    · subst hne
      have h0 : inp.running (st.running_reads + 0) = false := hclr 0 (by simp [stop_index, flag_reads])
      rw [hrv, h0]
      simp only [Bool.not_false, if_true]
      refine ⟨trivial, [DsEvent.running_read false, DsEvent.log_exiting], ?_, ?_⟩
      · simp [DsState.emit, read_running, h0]
        simpa using h0
      · exact observed_nil _ (by simp [sink, DsEvent.sample])
    · have hpos := flag_reads_pos ivs hne
      have hlenpos : 1 ≤ ivs.length := List.length_pos.2 hne
      have hstop : stop_index ivs = flag_reads ivs + (ivs.length + 499) / 500 - 1 := rfl
      have h0 : inp.running (st.running_reads + 0) = true := hset 0 (by omega)
      rw [hrv, h0]
      simp only [Bool.not_true, Bool.false_eq_true, if_false]
      rw [hrv, h0] at hre
      have hbat : batch inp ipm (read_running inp st).2 =
          { (for_loop inp ipm 500 0 { l := [], d := [] } (read_running inp st).2).2 with
            events :=
              (for_loop inp ipm 500 0 { l := [], d := [] } (read_running inp st).2).2.events ++
              [DsEvent.debug_print
                (for_loop inp ipm 500 0 { l := [], d := [] } (read_running inp st).2).1.l
                (for_loop inp ipm 500 0 { l := [], d := [] } (read_running inp st).2).1.d,
               DsEvent.delay_ms 50] } := by
        simp [batch, DsState.emit]
      by_cases hl : ivs.length ≤ 500
      · obtain ⟨c1, _, _, _, A, hA, hobs⟩ := for_loop_line inp ipm ivs [] 500 0
          { l := [], d := [] } (read_running inp st).2 hne hl
          (by rw [List.append_nil]; exact hline) ht
          (by
            intro i hi
            rw [hrc, Nat.add_assoc]
            exact hset _ (by omega))
          (Or.inl (by
            rw [hrc, Nat.add_assoc]
            exact hclr _ (by omega)))
        obtain ⟨g, rfl⟩ : ∃ g, f = g + 1 := ⟨f - 1, by omega⟩
        rw [hbat, outer_loop_succ]
        generalize for_loop inp ipm 500 0 { l := [], d := [] } (read_running inp st).2 = r
          at c1 hA ⊢
        have hf : inp.running r.2.running_reads = false := by
          rw [c1, hrc, Nat.add_assoc]
          exact hclr _ (by omega)
        simp only [read_running, hf, Bool.not_false, if_true, DsState.emit]
        refine ⟨trivial, [DsEvent.running_read true] ++ A ++
          [DsEvent.debug_print r.1.l r.1.d, DsEvent.delay_ms 50, DsEvent.running_read false,
            DsEvent.log_exiting], ?_, ?_⟩
        · rw [hA, hre]
          simp [List.append_assoc]
        · exact observed_pad _ _ _ _ (by simp [sink, DsEvent.sample])
            (by simp [sink, DsEvent.sample]) hobs
      · have hl2 : 500 < ivs.length := Nat.lt_of_not_le hl
        have htd : ivs.take 500 ++ ivs.drop 500 = ivs := List.take_append_drop 500 ivs
        have hlt : (ivs.take 500).length = 500 := by
          rw [List.length_take]; omega
        have hld : (ivs.drop 500).length = ivs.length - 500 := List.length_drop 500 ivs
        have hnt : ivs.take 500 ≠ [] := by
          intro h; rw [h] at hlt; simp at hlt
        have hnd : ivs.drop 500 ≠ [] := by
          intro h; rw [h] at hld; simp at hld; omega
        have hfa : flag_reads ivs = flag_reads (ivs.take 500) + flag_reads (ivs.drop 500) := by
          rw [← flag_reads_append, htd]
        have hpd := flag_reads_pos _ hnd
        have hpt := flag_reads_pos _ hnt
        have hsd : stop_index (ivs.drop 500)
            = flag_reads (ivs.drop 500) + ((ivs.drop 500).length + 499) / 500 - 1 := rfl
        obtain ⟨c1, c2, c3, c4, A, hA, hobs⟩ := for_loop_line inp ipm (ivs.take 500)
          (ivs.drop 500) 500 0 { l := [], d := [] } (read_running inp st).2 hnt
          (Nat.le_of_eq hlt)
          (by rw [htd]; exact hline) ht
          (by
            intro i hi
            rw [hrc, Nat.add_assoc]
            exact hset _ (by omega))
          (Or.inr ⟨hlt, by
            rw [hrc, Nat.add_assoc]
            exact hset _ (by omega)⟩)
        rw [htd] at c4
        rw [hbat]
        generalize for_loop inp ipm 500 0 { l := [], d := [] } (read_running inp st).2 = r
          at c1 c2 c3 c4 hA ⊢
        obtain ⟨hret, A2, hA2, hobs2⟩ := ih (ivs.drop 500)
          { r.2 with events := r.2.events ++
            [DsEvent.debug_print r.1.l r.1.d, DsEvent.delay_ms 50] }
          c2 c3
          (by
            intro i hi
            simp only [c1, hrc]
            rw [Nat.add_assoc, Nat.add_assoc]
            exact hset _ (by omega))
          (by
            intro i hi
            simp only [c1, hrc]
            rw [Nat.add_assoc, Nat.add_assoc]
            exact hclr _ (by omega))
          (by omega)
        refine ⟨hret, [DsEvent.running_read true] ++ A ++
          [DsEvent.debug_print r.1.l r.1.d, DsEvent.delay_ms 50] ++ A2, ?_, ?_⟩
        · rw [hA2]
          simp only [hA, hre]
          simp [List.append_assoc]
        · have hrl : (read_running inp st).2.last_level = st.last_level := rfl
          rw [hrl] at c4 hobs
          rw [c4]
          have h1 := observed_pad _ _ _ _
            (show sink [DsEvent.running_read true] = [] by simp [sink, DsEvent.sample])
            (show sink [DsEvent.debug_print r.1.l r.1.d, DsEvent.delay_ms 50] = [] by
              simp [sink, DsEvent.sample]) hobs
          exact observed_append _ _ _ _ h1 hobs2

theorem line_samples_get (ipm : Nat) (ivs : List Interval) (lvl : Bool) (k : Nat)
    (iv : Interval) (h : ivs[k]? = some iv) :
    (line_samples ipm ivs lvl)[k]?
      = some { level := if k % 2 = 0 then lvl else !lvl, duration := iv.cycles / ipm } := by
  induction ivs generalizing lvl k with
  | nil => simp at h
  | cons x rest ih =>
    cases k with
    | zero =>
      simp only [List.getElem?_cons_zero, Option.some.injEq] at h
      subst h
      simp [line_samples]
    | succ k =>
      simp only [List.getElem?_cons_succ] at h
      have := ih (!lvl) k h
      simp only [line_samples, List.getElem?_cons_succ, this]
      rcases Nat.mod_two_eq_zero_or_one k with hk | hk
      · have : (k + 1) % 2 = 1 := by omega
        simp [hk, this]
      · have : (k + 1) % 2 = 0 := by omega
        simp [hk, this]

/-- C11: let the input present a line that starts low and alternates, given by
its intervals (for each, the passes of the busy poll before the transition
that ends it is seen, fewer than 50000, and its length in cycles, below
`2 ^ 32`), with the clock read at each transition equal to the transition
time, and let the running flag read set up to the check after the last
sample and cleared from then on.  Then the thread returns 0; the sink holds
exactly one sample for each interval, the `k`-th (from 0) with level low for
even `k` and high for odd `k` and the length of the `k`-th interval in whole
microseconds; and the pin read that sees the end of the `k`-th interval is
made when the sink holds exactly the first `k` samples. -/
theorem thread_follows_line (inp : DsInput) (ipm fuel : Nat) (ivs : List Interval)
    (_hc : 0 < ipm)
    (hline : LineFrom inp ivs false 0 1 (inp.cyccnt 0 % 2 ^ 32))
    (hset : ∀ i, i < stop_index ivs → inp.running i = true)
    (hclr : ∀ i, stop_index ivs ≤ i → inp.running i = false)
    (hfuel : (ivs.length + 499) / 500 + 1 ≤ fuel) :
    (direct_sampling_thread inp ipm fuel).1 = some 0 ∧
    sink (direct_sampling_thread inp ipm fuel).2.events = line_samples ipm ivs false ∧
    (∀ (k : Nat) (iv : Interval), ivs[k]? = some iv →
      (sink (direct_sampling_thread inp ipm fuel).2.events)[k]?
        = some (RawSample.mk (decide (k % 2 = 1)) (iv.cycles / ipm))) ∧
    (∀ (k : Nat) (s : RawSample),
      (sink (direct_sampling_thread inp ipm fuel).2.events)[k]? = some s →
      ∃ pre post,
        (direct_sampling_thread inp ipm fuel).2.events
          = pre ++ DsEvent.gpio_read (!s.level) :: post ∧
        sink pre = (sink (direct_sampling_thread inp ipm fuel).2.events).take k) := by
  rw [direct_sampling_thread_eq]
  obtain ⟨hret, A, hA, hobs⟩ := outer_loop_line inp ipm fuel ivs (ds_entry inp) hline
    (Nat.mod_lt _ (by norm_num))
    (fun i hi => by simp only [ds_entry, Nat.zero_add]; exact hset i hi)
    (fun i hi => by simp only [ds_entry, Nat.zero_add]; exact hclr i hi) hfuel
  have hobs2 : Observed (line_samples ipm ivs false) ((ds_entry inp).events ++ A) := by
    have := observed_pad _ (ds_entry inp).events A []
      (by simp [ds_entry, sink, DsEvent.sample]) rfl hobs
    simpa [ds_entry] using this
  rw [hA]
  refine ⟨hret, hobs2.1, ?_, ?_⟩
  · intro k iv hk
    rw [hobs2.1, line_samples_get ipm ivs false k iv hk]
    rcases Nat.mod_two_eq_zero_or_one k with h | h <;> simp [h]
  · intro k s hk
    rw [hobs2.1] at hk ⊢
    exact hobs2.2 k s hk

/-- C11, at a concrete input: a line low for 100 µs, high for 200 µs, low for
50 µs at 64 cycles per microsecond, the thread starting at counter value 1000;
the three transitions are seen on the third, first and second pass of their
busy polls, and the flag is cleared after the third is seen.  The sink ends
with (low, 100), (high, 200), (low, 50), and holds (low, 100), (high, 200) when
the pin read that sees the third transition is made. -/
theorem thread_follows_line_witness :
    (direct_sampling_thread
      (DsInput.of_lists [false, false, true, false, false, true] [1000, 7400, 20200, 23400] 9)
      64 2).1 = some 0 ∧
    sink (direct_sampling_thread
      (DsInput.of_lists [false, false, true, false, false, true] [1000, 7400, 20200, 23400] 9)
      64 2).2.events
      = [{ level := false, duration := 100 }, { level := true, duration := 200 },
         { level := false, duration := 50 }] ∧
    ∃ pre post,
      (direct_sampling_thread
        (DsInput.of_lists [false, false, true, false, false, true] [1000, 7400, 20200, 23400] 9)
        64 2).2.events = pre ++ DsEvent.gpio_read true :: post ∧
      sink pre = [{ level := false, duration := 100 }, { level := true, duration := 200 }] := by
  have h := thread_follows_line
    (DsInput.of_lists [false, false, true, false, false, true] [1000, 7400, 20200, 23400] 9)
    64 2 [⟨2, 6400⟩, ⟨0, 12800⟩, ⟨1, 3200⟩] (by decide)
    (by
      simp only [LineFrom, DsInput.of_lists]
      refine ⟨by decide, by decide, by decide, by decide, by decide, by decide, by decide,
        by decide, by decide, by decide, by decide, by decide, by decide, by decide, by decide,
        trivial⟩)
    (fun i hi => by
      simp only [DsInput.of_lists, decide_eq_true_eq]
      exact hi)
    (fun i hi => by
      simp only [DsInput.of_lists, decide_eq_false_iff_not, Nat.not_lt]
      exact hi)
    (by decide)
  have hs : sink (direct_sampling_thread
      (DsInput.of_lists [false, false, true, false, false, true] [1000, 7400, 20200, 23400] 9)
      64 2).2.events
      = [{ level := false, duration := 100 }, { level := true, duration := 200 },
         { level := false, duration := 50 }] := h.2.1
  refine ⟨h.1, hs, ?_⟩
  obtain ⟨pre, post, he, hp⟩ := h.2.2.2 2 { level := false, duration := 50 } (by rw [hs]; rfl)
  exact ⟨pre, post, he, by rw [hp, hs]; rfl⟩

end ProtoView
